import Mathlib

/-!
A verification development for the Grafatko graph-drawing engine.

The Python sources are shallowly embedded:
* `grafatko/graph.py` — the `Node`, `Vertex`, `Graph` classes with their
  structural mutators and the component recomputation, plus the
  `DrawableGraph` BFS distance map and the `DrawableNode` force accumulator;
* `src/__main__.py` — the `Canvas.update` force simulation step.

Python object identity is modelled by a stable natural-number handle
(`NodeId`) assigned in allocation order; Python `set`s of vertex objects are
modelled as insertion-ordered lists (every created vertex is a fresh object,
so `set.add` never deduplicates); Python dicts keyed by identity are
association lists.  Numeric weights are embedded as `Int` (the inputs
considered are integer literals).
-/

namespace Grafatko

abbrev NodeId := Nat

/-- `Vertex`: an edge record `node_from → node_to` with a weight
(graph.py, class `Vertex`). -/
structure Vertex where
  node_from : NodeId
  node_to : NodeId
  weight : Int
deriving DecidableEq, Repr

/-- `Node`: a graph node with its label and its set of outgoing vertex
records (`Node.adjacent` in graph.py), modelled as an insertion-ordered
list. -/
structure Node where
  id : NodeId
  label : Option String
  adjacent : List Vertex
deriving DecidableEq, Repr

/-- `Node.get_adjacent_nodes`: the identities of the out-neighbours. -/
def Node.outIds (n : Node) : List NodeId :=
  n.adjacent.map (fun v => v.node_to)

/-- `Node._add_adjacent`: add an adjacent vertex record. -/
def Node.addAdjacent (n : Node) (v : Vertex) : Node :=
  { n with adjacent := n.adjacent ++ [v] }

/-- `Node._remove_adjacent_node`: drop every adjacent vertex record whose
target is the given node. -/
def Node.removeAdjacentNode (n : Node) (m : NodeId) : Node :=
  { n with adjacent := n.adjacent.filter (fun v => !(v.node_to == m)) }

/-- The candidate set `set([node] + node.get_adjacent_nodes())` formed for
each node inside `Graph.recalculate_components`. -/
def Node.candidate (n : Node) : Finset NodeId :=
  insert n.id n.outIds.toFinset

/-- The `Graph` dataclass of graph.py.  `components` starts out as the empty
list (the Python default is `None`, replaced on the first recomputation; no
claim observes the pre-mutation value). -/
structure Graph where
  directed : Bool
  weighted : Bool
  nodes : List Node
  vertices : List Vertex
  components : List (Finset NodeId)
deriving DecidableEq

def Graph.ids (g : Graph) : List NodeId := g.nodes.map (fun n => n.id)

/-- Look a node up by its identity. -/
def Graph.findNode (g : Graph) (i : NodeId) : Option Node :=
  g.nodes.find? (fun n => n.id == i)

/-- The out-neighbour identities of the node with identity `i`
(empty if no such node is in the graph). -/
def Graph.adjacentIds (g : Graph) (i : NodeId) : List NodeId :=
  match g.findNode i with
  | some n => n.outIds
  | none => []

/-- `Node.is_adjacent_to`, read off the graph by identity. -/
def Graph.isAdjacent (g : Graph) (a b : NodeId) : Bool :=
  (g.adjacentIds a).contains b

/-- Apply `f` to the node with identity `i` (Python mutates the object in
place; identities are unique, so at most one entry changes). -/
def Graph.mapNode (g : Graph) (i : NodeId) (f : Node → Node) : Graph :=
  { g with nodes := g.nodes.map (fun n => if n.id == i then f n else n) }

/-- Union of a list of finsets. -/
def unionAll (l : List (Finset NodeId)) : Finset NodeId :=
  l.foldr (fun s t => s ∪ t) ∅

/-- The inner `while i < len(self.components)` loop of
`Graph.recalculate_components`: scan the accumulated list in order; a set
meeting the growing candidate is popped and merged into it, otherwise it is
kept.  Returns the final candidate and the kept sets in order. -/
def mergeLoop (c : Finset NodeId) : List (Finset NodeId) → Finset NodeId × List (Finset NodeId)
  | [] => (c, [])
  | s :: rest =>
    if (s ∩ c).Nonempty then mergeLoop (c ∪ s) rest
    else
      let p := mergeLoop c rest
      (p.1, s :: p.2)

/-- One iteration of the `for node in self.get_nodes()` loop of
`Graph.recalculate_components`: merge the candidate with every accumulated
set meeting it, then append the result. -/
def buildStep (acc : List (Finset NodeId)) (c : Finset NodeId) : List (Finset NodeId) :=
  let p := mergeLoop c acc
  p.2 ++ [p.1]

/-- The component list rebuilt by `Graph.recalculate_components`. -/
def computeComponents (nodes : List Node) : List (Finset NodeId) :=
  nodes.foldl (fun acc n => buildStep acc n.candidate) []

/-- The `recalculate_components` decorator body: rebuild `self.components`
after the wrapped mutation. -/
def Graph.recalc (g : Graph) : Graph :=
  { g with components := computeComponents g.nodes }

/-- `Graph.weakly_connected`'s loop over `self.components`: the Python
function returns `True`, `False`, or falls through returning `None`. -/
def wcLoop (a b : NodeId) : List (Finset NodeId) → Option Bool
  | [] => none
  | c :: rest =>
    if a ∈ c ∧ b ∈ c then some true
    else if a ∈ c ∨ b ∈ c then some false
    else wcLoop a b rest

/-- `Graph.weakly_connected` (graph.py lines 133-142). -/
def Graph.weakly_connected (g : Graph) (a b : NodeId) : Option Bool :=
  wcLoop a b g.components

/-- `Graph.get_weight`: the weight of the first vertex record `a → b`. -/
def Graph.get_weight (g : Graph) (a b : NodeId) : Option Int :=
  (g.vertices.find? (fun v => v.node_from == a && v.node_to == b)).map (fun v => v.weight)

/-- `Graph.add_node` (decorated with `recalculate_components`): append a
fresh node. -/
def Graph.add_node (g : Graph) (i : NodeId) (lab : Option String) : Graph :=
  Graph.recalc { g with nodes := g.nodes ++ [⟨i, lab, []⟩] }

/-- `Graph.remove_node` (decorated): drop the node, every vertex record
incident to it, and its entry in every remaining adjacency set.  If the node
is absent, Python's `list.remove` raises before any mutation, so the graph
is unchanged. -/
def Graph.remove_node (g : Graph) (i : NodeId) : Graph :=
  if (g.findNode i).isSome then
    Graph.recalc
      { g with
        nodes := (g.nodes.eraseP (fun n => n.id == i)).map (fun n => n.removeAdjacentNode i),
        vertices := g.vertices.filter (fun v => !(v.node_from == i || v.node_to == i)) }
  else g

/-- `Graph.add_vertex` without the decorator's recomputation: refuse
self-loops in undirected graphs and duplicates, otherwise append the record
(and the reverse record when undirected). -/
def Graph.add_vertexRaw (g : Graph) (a b : NodeId) (w : Int) : Graph :=
  if (a == b && !g.directed) || g.isAdjacent a b then g
  else
    let g1 := (Graph.mapNode { g with vertices := g.vertices ++ [⟨a, b, w⟩] } a
      (fun n => n.addAdjacent ⟨a, b, w⟩))
    if g.directed then g1
    else
      Graph.mapNode { g1 with vertices := g1.vertices ++ [⟨b, a, w⟩] } b
        (fun n => n.addAdjacent ⟨b, a, w⟩)

/-- `Graph.add_vertex` (decorated). -/
def Graph.add_vertex (g : Graph) (a b : NodeId) (w : Int) : Graph :=
  (g.add_vertexRaw a b w).recalc

/-- `Graph.remove_vertex` without the decorator's recomputation: filter the
vertex list, then clean the adjacency sets (both directions when
undirected). -/
def Graph.remove_vertexRaw (g : Graph) (a b : NodeId) : Graph :=
  let g1 := { g with vertices := g.vertices.filter (fun v =>
      !((v.node_from == a && v.node_to == b) ||
        (!g.directed && v.node_from == b && v.node_to == a))) }
  let g2 := g1.mapNode a (fun n => n.removeAdjacentNode b)
  if g.directed then g2 else g2.mapNode b (fun n => n.removeAdjacentNode a)

/-- `Graph.remove_vertex` (decorated). -/
def Graph.remove_vertex (g : Graph) (a b : NodeId) : Graph :=
  (g.remove_vertexRaw a b).recalc

/-- `Graph.toggle_vertex`. -/
def Graph.toggle_vertex (g : Graph) (a b : NodeId) : Graph :=
  if g.isAdjacent a b then g.remove_vertex a b else g.add_vertex a b 1

/-- The body of `Graph.set_directed`'s loop for one node: iterate over a
snapshot of its out-neighbours; remove a self-loop, otherwise add the
reverse vertex. -/
def Graph.symStep (g : Graph) (i : NodeId) : Graph :=
  (g.adjacentIds i).foldl
    (fun h m => if i == m then h.remove_vertex i m else h.add_vertex m i 1) g

/-- `Graph.set_directed` (graph.py lines 148-159): the symmetrization loop
runs whenever the graph is currently directed — the condition tests the
present flag, not the argument — and then the flag is assigned. -/
def Graph.set_directed (g : Graph) (b : Bool) : Graph :=
  let g1 := if g.directed then (g.nodes.map (fun n => n.id)).foldl Graph.symStep g else g
  { g1 with directed := b }

/-- `Graph.set_weighted`. -/
def Graph.set_weighted (g : Graph) (b : Bool) : Graph :=
  { g with weighted := b }

/-- The pair list visited by `complement` and `reorient`:
`(nodes[i], n2)` for `n2` in `nodes[i:]` (self-pairs included). -/
def tailPairs : List NodeId → List (NodeId × NodeId)
  | [] => []
  | a :: rest => (a :: rest).map (fun b => (a, b)) ++ tailPairs rest

/-- `Graph.complement`: toggle every ordered pair once, and the reverse pair
as well when directed. -/
def Graph.complement (g : Graph) : Graph :=
  (tailPairs (g.nodes.map (fun n => n.id))).foldl
    (fun h p =>
      let h1 := h.toggle_vertex p.1 p.2
      if h1.directed then h1.toggle_vertex p.2 p.1 else h1) g

/-- `Graph.reorient`: for every pair with exactly one of the two directions
present, flip both slots. -/
def Graph.reorient (g : Graph) : Graph :=
  (tailPairs (g.nodes.map (fun n => n.id))).foldl
    (fun h p =>
      if h.isAdjacent p.1 p.2 != h.isAdjacent p.2 p.1 then
        (h.toggle_vertex p.1 p.2).toggle_vertex p.2 p.1
      else h) g

/-- The structural operations a client can perform on a graph. -/
inductive Op where
  | addNode (lab : Option String)
  | removeNode (i : NodeId)
  | addVertex (a b : NodeId) (w : Int)
  | removeVertex (a b : NodeId)
  | toggleVertex (a b : NodeId)
  | setDirected (b : Bool)
  | setWeighted (b : Bool)
  | complementOp
  | reorientOp
deriving DecidableEq, Repr

/-- Run one operation; the second component is the allocation counter
providing fresh identities for `add_node` (Python allocates a fresh object). -/
def applyOp : Graph × Nat → Op → Graph × Nat
  | (g, c), .addNode lab => (g.add_node c lab, c + 1)
  | (g, c), .removeNode i => (g.remove_node i, c)
  | (g, c), .addVertex a b w => (g.add_vertex a b w, c)
  | (g, c), .removeVertex a b => (g.remove_vertex a b, c)
  | (g, c), .toggleVertex a b => (g.toggle_vertex a b, c)
  | (g, c), .setDirected b => (g.set_directed b, c)
  | (g, c), .setWeighted b => (g.set_weighted b, c)
  | (g, c), .complementOp => (g.complement, c)
  | (g, c), .reorientOp => (g.reorient, c)

def initState : Graph × Nat := (⟨false, false, [], [], []⟩, 0)

def runOps (ops : List Op) : Graph × Nat := ops.foldl applyOp initState

/-- A vertex operation is valid when both its endpoints are nodes of the
current graph (the callers in the application pass live node objects). -/
def validOp (g : Graph) : Op → Bool
  | .addVertex a b _ => (g.ids).contains a && (g.ids).contains b
  | .removeVertex a b => (g.ids).contains a && (g.ids).contains b
  | .toggleVertex a b => (g.ids).contains a && (g.ids).contains b
  | _ => true

def validOps : Graph × Nat → List Op → Bool
  | _, [] => true
  | s, op :: rest => validOp s.1 op && validOps (applyOp s op) rest

/-! ### Theory of the component recomputation -/

/-- A set all of whose members are pairwise related by `R`. -/
def ConnSet (R : NodeId → NodeId → Prop) (s : Finset NodeId) : Prop :=
  ∀ x ∈ s, ∀ y ∈ s, R x y

theorem mergeLoop_sublist (c : Finset NodeId) (l : List (Finset NodeId)) :
    (mergeLoop c l).2.Sublist l := by
  induction l generalizing c with
  | nil => simp [mergeLoop]
  | cons s rest ih =>
    by_cases h : (s ∩ c).Nonempty
    · simp only [mergeLoop, if_pos h]
      exact (ih (c ∪ s)).cons s
    · simp only [mergeLoop, if_neg h]
      exact (ih c).cons₂ s

theorem mergeLoop_subset_fst (c : Finset NodeId) (l : List (Finset NodeId)) :
    c ⊆ (mergeLoop c l).1 := by
  induction l generalizing c with
  | nil => simp [mergeLoop]
  | cons s rest ih =>
    by_cases h : (s ∩ c).Nonempty
    · simp only [mergeLoop, if_pos h]
      exact Finset.subset_union_left.trans (ih (c ∪ s))
    · simp only [mergeLoop, if_neg h]
      exact ih c

theorem mergeLoop_mem (c : Finset NodeId) (l : List (Finset NodeId)) (x : NodeId) :
    (x ∈ (mergeLoop c l).1 ∨ ∃ s ∈ (mergeLoop c l).2, x ∈ s) ↔
      (x ∈ c ∨ ∃ s ∈ l, x ∈ s) := by
  induction l generalizing c with
  | nil => simp [mergeLoop]
  | cons s rest ih =>
    by_cases h : (s ∩ c).Nonempty
    · simp only [mergeLoop, if_pos h]
      rw [ih (c ∪ s)]
      simp only [Finset.mem_union, List.mem_cons]
      constructor
      · rintro ((hx | hx) | ⟨t, ht, hxt⟩)
        · exact Or.inl hx
        · exact Or.inr ⟨s, Or.inl rfl, hx⟩
        · exact Or.inr ⟨t, Or.inr ht, hxt⟩
      · rintro (hx | ⟨t, (rfl | ht), hxt⟩)
        · exact Or.inl (Or.inl hx)
        · exact Or.inl (Or.inr hxt)
        · exact Or.inr ⟨t, ht, hxt⟩
    · simp only [mergeLoop, if_neg h, List.mem_cons]
      constructor
      · rintro (hx | ⟨t, (rfl | ht), hxt⟩)
        · rcases (ih c).mp (Or.inl hx) with h1 | ⟨u, hu, hxu⟩
          · exact Or.inl h1
          · exact Or.inr ⟨u, Or.inr hu, hxu⟩
        · exact Or.inr ⟨t, Or.inl rfl, hxt⟩
        · rcases (ih c).mp (Or.inr ⟨t, ht, hxt⟩) with h1 | ⟨u, hu, hxu⟩
          · exact Or.inl h1
          · exact Or.inr ⟨u, Or.inr hu, hxu⟩
      · rintro (hx | ⟨t, (rfl | ht), hxt⟩)
        · rcases (ih c).mpr (Or.inl hx) with h1 | ⟨u, hu, hxu⟩
          · exact Or.inl h1
          · exact Or.inr ⟨u, Or.inr hu, hxu⟩
        · exact Or.inr ⟨t, Or.inl rfl, hxt⟩
        · rcases (ih c).mpr (Or.inr ⟨t, ht, hxt⟩) with h1 | ⟨u, hu, hxu⟩
          · exact Or.inl h1
          · exact Or.inr ⟨u, Or.inr hu, hxu⟩

theorem mergeLoop_fst_mem (c : Finset NodeId) (l : List (Finset NodeId)) (x : NodeId)
    (hx : x ∈ (mergeLoop c l).1) : x ∈ c ∨ ∃ s ∈ l, x ∈ s :=
  (mergeLoop_mem c l x).mp (Or.inl hx)

theorem mergeLoop_kept_disjoint (c : Finset NodeId) (l : List (Finset NodeId))
    (hl : l.Pairwise Disjoint) :
    ∀ s ∈ (mergeLoop c l).2, Disjoint s (mergeLoop c l).1 := by
  induction l generalizing c with
  | nil => simp [mergeLoop]
  | cons s rest ih =>
    obtain ⟨hs, hrest⟩ := List.pairwise_cons.mp hl
    by_cases h : (s ∩ c).Nonempty
    · simp only [mergeLoop, if_pos h]
      exact ih (c ∪ s) hrest
    · simp only [mergeLoop, if_neg h]
      intro t ht
      rcases List.mem_cons.mp ht with rfl | ht'
      · rw [Finset.disjoint_left]
        intro x hxs hx1
        rcases mergeLoop_fst_mem c rest x hx1 with hxc | ⟨u, hu, hxu⟩
        · exact h ⟨x, Finset.mem_inter.mpr ⟨hxs, hxc⟩⟩
        · exact (Finset.disjoint_left.mp (hs u hu) hxs) hxu
      · exact ih c hrest t ht'

theorem mergeLoop_fate (c : Finset NodeId) (l : List (Finset NodeId)) :
    ∀ s ∈ l, s ∈ (mergeLoop c l).2 ∨ s ⊆ (mergeLoop c l).1 := by
  induction l generalizing c with
  | nil => simp
  | cons s rest ih =>
    by_cases h : (s ∩ c).Nonempty
    · simp only [mergeLoop, if_pos h]
      intro t ht
      rcases List.mem_cons.mp ht with rfl | ht'
      · exact Or.inr (Finset.subset_union_right.trans (mergeLoop_subset_fst _ _))
      · exact ih (c ∪ s) t ht'
    · simp only [mergeLoop, if_neg h]
      intro t ht
      rcases List.mem_cons.mp ht with rfl | ht'
      · exact Or.inl (List.mem_cons_self _ _)
      · rcases ih c t ht' with h1 | h2
        · exact Or.inl (List.mem_cons_of_mem _ h1)
        · exact Or.inr h2

theorem mergeLoop_conn (R : NodeId → NodeId → Prop)
    (htrans : ∀ a b c, R a b → R b c → R a c)
    (c : Finset NodeId) (l : List (Finset NodeId))
    (hc : ConnSet R c) (hl : ∀ s ∈ l, ConnSet R s) :
    ConnSet R (mergeLoop c l).1 := by
  induction l generalizing c with
  | nil => simpa [mergeLoop] using hc
  | cons s rest ih =>
    by_cases h : (s ∩ c).Nonempty
    · simp only [mergeLoop, if_pos h]
      apply ih (c ∪ s) _ (fun t ht => hl t (List.mem_cons_of_mem _ ht))
      obtain ⟨z, hz⟩ := h
      obtain ⟨hzs, hzc⟩ := Finset.mem_inter.mp hz
      have hcs : ConnSet R s := hl s (List.mem_cons_self _ _)
      intro x hx y hy
      rcases Finset.mem_union.mp hx with hx' | hx' <;>
        rcases Finset.mem_union.mp hy with hy' | hy'
      · exact hc x hx' y hy'
      · exact htrans x z y (hc x hx' z hzc) (hcs z hzs y hy')
      · exact htrans x z y (hcs x hx' z hzs) (hc z hzc y hy')
      · exact hcs x hx' y hy'
    · simp only [mergeLoop, if_neg h]
      exact ih c hc (fun t ht => hl t (List.mem_cons_of_mem _ ht))

theorem buildStep_pairwise (acc : List (Finset NodeId)) (c : Finset NodeId)
    (h : acc.Pairwise Disjoint) : (buildStep acc c).Pairwise Disjoint := by
  unfold buildStep
  apply List.pairwise_append.mpr
  refine ⟨List.Pairwise.sublist (mergeLoop_sublist c acc) h, List.pairwise_singleton _ _, ?_⟩
  intro s hs t ht
  rw [List.mem_singleton] at ht
  subst ht
  exact mergeLoop_kept_disjoint c acc h s hs

theorem buildStep_mem (acc : List (Finset NodeId)) (c : Finset NodeId) (x : NodeId) :
    (∃ s ∈ buildStep acc c, x ∈ s) ↔ (x ∈ c ∨ ∃ s ∈ acc, x ∈ s) := by
  unfold buildStep
  rw [← mergeLoop_mem c acc x]
  simp only [List.mem_append, List.mem_singleton]
  constructor
  · rintro ⟨s, hs | rfl, hx⟩
    · exact Or.inr ⟨s, hs, hx⟩
    · exact Or.inl hx
  · rintro (h1 | ⟨s, hs, hx⟩)
    · exact ⟨_, Or.inr rfl, h1⟩
    · exact ⟨s, Or.inl hs, hx⟩

theorem buildStep_persist (acc : List (Finset NodeId)) (c : Finset NodeId) (a b : NodeId)
    (h : ∃ s ∈ acc, a ∈ s ∧ b ∈ s) : ∃ s ∈ buildStep acc c, a ∈ s ∧ b ∈ s := by
  obtain ⟨s, hs, ha, hb⟩ := h
  rcases mergeLoop_fate c acc s hs with h1 | h2
  · exact ⟨s, List.mem_append_left _ h1, ha, hb⟩
  · exact ⟨(mergeLoop c acc).1, List.mem_append_right _ (List.mem_singleton_self _),
      h2 ha, h2 hb⟩

theorem buildStep_join (acc : List (Finset NodeId)) (c : Finset NodeId) (a b : NodeId)
    (ha : a ∈ c) (hb : b ∈ c) : ∃ s ∈ buildStep acc c, a ∈ s ∧ b ∈ s :=
  ⟨(mergeLoop c acc).1, List.mem_append_right _ (List.mem_singleton_self _),
    mergeLoop_subset_fst c acc ha, mergeLoop_subset_fst c acc hb⟩

theorem buildStep_conn (R : NodeId → NodeId → Prop)
    (htrans : ∀ a b c, R a b → R b c → R a c)
    (acc : List (Finset NodeId)) (c : Finset NodeId)
    (hacc : ∀ s ∈ acc, ConnSet R s) (hc : ConnSet R c) :
    ∀ s ∈ buildStep acc c, ConnSet R s := by
  intro s hs
  rcases List.mem_append.mp hs with h1 | h2
  · exact hacc s ((mergeLoop_sublist c acc).mem h1)
  · rw [List.mem_singleton] at h2
    subst h2
    exact mergeLoop_conn R htrans c acc hc hacc

/-- The component rebuild, phrased over the list of candidate sets. -/
def buildComponents (cs : List (Finset NodeId)) : List (Finset NodeId) :=
  cs.foldl buildStep []

theorem computeComponents_eq (nodes : List Node) :
    computeComponents nodes = buildComponents (nodes.map Node.candidate) := by
  unfold computeComponents buildComponents
  rw [List.foldl_map]

theorem foldl_buildStep_pairwise (cs : List (Finset NodeId)) (acc : List (Finset NodeId))
    (h : acc.Pairwise Disjoint) : (cs.foldl buildStep acc).Pairwise Disjoint := by
  induction cs generalizing acc with
  | nil => exact h
  | cons c rest ih => exact ih _ (buildStep_pairwise acc c h)

theorem foldl_buildStep_mem (cs : List (Finset NodeId)) (acc : List (Finset NodeId))
    (x : NodeId) :
    (∃ s ∈ cs.foldl buildStep acc, x ∈ s) ↔
      ((∃ s ∈ cs, x ∈ s) ∨ ∃ s ∈ acc, x ∈ s) := by
  induction cs generalizing acc with
  | nil => simp
  | cons c rest ih =>
    simp only [List.foldl_cons]
    rw [ih (buildStep acc c)]
    rw [buildStep_mem]
    simp only [List.mem_cons]
    constructor
    · rintro (⟨s, hs, hx⟩ | (hx | ⟨s, hs, hx⟩))
      · exact Or.inl ⟨s, Or.inr hs, hx⟩
      · exact Or.inl ⟨c, Or.inl rfl, hx⟩
      · exact Or.inr ⟨s, hs, hx⟩
    · rintro (⟨s, (rfl | hs), hx⟩ | ⟨s, hs, hx⟩)
      · exact Or.inr (Or.inl hx)
      · exact Or.inl ⟨s, hs, hx⟩
      · exact Or.inr (Or.inr ⟨s, hs, hx⟩)

theorem foldl_buildStep_persist (cs : List (Finset NodeId)) (acc : List (Finset NodeId))
    (a b : NodeId) (h : ∃ s ∈ acc, a ∈ s ∧ b ∈ s) :
    ∃ s ∈ cs.foldl buildStep acc, a ∈ s ∧ b ∈ s := by
  induction cs generalizing acc with
  | nil => exact h
  | cons c rest ih => exact ih _ (buildStep_persist acc c a b h)

theorem foldl_buildStep_join (cs : List (Finset NodeId)) (acc : List (Finset NodeId))
    (a b : NodeId) (h : ∃ k ∈ cs, a ∈ k ∧ b ∈ k) :
    ∃ s ∈ cs.foldl buildStep acc, a ∈ s ∧ b ∈ s := by
  induction cs generalizing acc with
  | nil => simp at h
  | cons c rest ih =>
    rcases h with ⟨k, hk, ha, hb⟩
    rcases List.mem_cons.mp hk with rfl | hk'
    · exact foldl_buildStep_persist rest _ a b (buildStep_join acc k a b ha hb)
    · exact ih _ ⟨k, hk', ha, hb⟩

theorem foldl_buildStep_conn (R : NodeId → NodeId → Prop)
    (htrans : ∀ a b c, R a b → R b c → R a c)
    (cs : List (Finset NodeId)) (acc : List (Finset NodeId))
    (hacc : ∀ s ∈ acc, ConnSet R s) (hcs : ∀ k ∈ cs, ConnSet R k) :
    ∀ s ∈ cs.foldl buildStep acc, ConnSet R s := by
  induction cs generalizing acc with
  | nil => exact hacc
  | cons c rest ih =>
    exact ih _ (buildStep_conn R htrans acc c hacc (hcs c (List.mem_cons_self _ _)))
      (fun k hk => hcs k (List.mem_cons_of_mem _ hk))

theorem mem_eq_of_pairwise_disjoint {l : List (Finset NodeId)} (h : l.Pairwise Disjoint)
    {s t : Finset NodeId} (hs : s ∈ l) (ht : t ∈ l) {x : NodeId}
    (hxs : x ∈ s) (hxt : x ∈ t) : s = t := by
  induction l with
  | nil => simp at hs
  | cons c rest ih =>
    obtain ⟨hd, htl⟩ := List.pairwise_cons.mp h
    rcases List.mem_cons.mp hs with rfl | hs' <;> rcases List.mem_cons.mp ht with rfl | ht'
    · rfl
    · exact absurd hxt (Finset.disjoint_left.mp (hd t ht') hxs)
    · exact absurd hxs (Finset.disjoint_left.mp (hd s hs') hxt)
    · exact ih htl hs' ht'

/-! ### Adjacency as a relation -/

/-- Propositional form of `Node.is_adjacent_to` read off the graph. -/
def adjP (g : Graph) (a b : NodeId) : Prop := g.isAdjacent a b = true

theorem adjP_iff_mem {g : Graph} {a b : NodeId} :
    adjP g a b ↔ b ∈ g.adjacentIds a := by
  unfold adjP Graph.isAdjacent
  rw [List.contains_iff_exists_mem_beq]
  constructor
  · rintro ⟨x, hx, he⟩
    rw [beq_iff_eq] at he
    exact he ▸ hx
  · intro h
    exact ⟨b, h, by simp⟩

theorem node_eq_of_id_eq {l : List Node} (h : (l.map (fun n => n.id)).Nodup)
    {n m : Node} (hn : n ∈ l) (hm : m ∈ l) (e : n.id = m.id) : n = m := by
  induction l with
  | nil => simp at hn
  | cons c rest ih =>
    simp only [List.map_cons, List.nodup_cons] at h
    obtain ⟨hc, hrest⟩ := h
    rcases List.mem_cons.mp hn with rfl | hn' <;> rcases List.mem_cons.mp hm with rfl | hm'
    · rfl
    · exact absurd (by rw [e]; exact List.mem_map_of_mem _ hm') hc
    · exact absurd (by rw [← e]; exact List.mem_map_of_mem _ hn') hc
    · exact ih hrest hn' hm'

theorem findNode_eq_some {g : Graph} (hnd : g.ids.Nodup) {n : Node}
    (hn : n ∈ g.nodes) : g.findNode n.id = some n := by
  unfold Graph.findNode
  cases hf : g.nodes.find? (fun m => m.id == n.id) with
  | none =>
    rw [List.find?_eq_none] at hf
    exact absurd (by simp) (hf n hn)
  | some m =>
    have hm := List.find?_some hf
    have hmem := List.mem_of_find?_eq_some hf
    rw [beq_iff_eq] at hm
    rw [node_eq_of_id_eq hnd hmem hn hm]

theorem findNode_mem_id {g : Graph} {i : NodeId} {n : Node}
    (h : g.findNode i = some n) : n ∈ g.nodes ∧ n.id = i := by
  refine ⟨List.mem_of_find?_eq_some h, ?_⟩
  have := List.find?_some h
  rwa [beq_iff_eq] at this

theorem findNode_isSome_iff {g : Graph} {i : NodeId} :
    (g.findNode i).isSome = true ↔ i ∈ g.ids := by
  constructor
  · intro h
    cases hf : g.findNode i with
    | none => rw [hf] at h; simp at h
    | some n =>
      obtain ⟨hn, hid⟩ := findNode_mem_id hf
      exact hid ▸ List.mem_map_of_mem _ hn
  · intro h
    obtain ⟨n, hn, rfl⟩ := List.mem_map.mp h
    cases hf : g.findNode n.id with
    | none =>
      unfold Graph.findNode at hf
      rw [List.find?_eq_none] at hf
      exact absurd (by simp) (hf n hn)
    | some m => simp

theorem adjP_mem_left {g : Graph} {a b : NodeId} (h : adjP g a b) : a ∈ g.ids := by
  rw [adjP_iff_mem] at h
  unfold Graph.adjacentIds at h
  cases hf : g.findNode a with
  | none => rw [hf] at h; simp at h
  | some n => exact findNode_isSome_iff.mp (by rw [hf]; rfl)

theorem adjP_of_not_mem {g : Graph} {a : NodeId} (h : a ∉ g.ids) (b : NodeId) :
    ¬ adjP g a b := fun hadj => h (adjP_mem_left hadj)

theorem adjP_iff {g : Graph} (hnd : g.ids.Nodup) {a b : NodeId} :
    adjP g a b ↔ ∃ n ∈ g.nodes, n.id = a ∧ b ∈ n.outIds := by
  rw [adjP_iff_mem]
  unfold Graph.adjacentIds
  constructor
  · intro h
    cases hf : g.findNode a with
    | none => rw [hf] at h; simp at h
    | some n =>
      rw [hf] at h
      obtain ⟨hn, hid⟩ := findNode_mem_id hf
      exact ⟨n, hn, hid, h⟩
  · rintro ⟨n, hn, rfl, hb⟩
    rw [findNode_eq_some hnd hn]
    exact hb

/-- A step of the path relation "connected ignoring edge direction". -/
def weakRel (g : Graph) (a b : NodeId) : Prop := adjP g a b ∨ adjP g b a

/-- "A path between them exists ignoring edge direction". -/
def weakConn (g : Graph) : NodeId → NodeId → Prop := Relation.ReflTransGen (weakRel g)

/-- Two nodes sharing some candidate set of the component rebuild. -/
def relC (g : Graph) (a b : NodeId) : Prop :=
  ∃ n ∈ g.nodes, a ∈ n.candidate ∧ b ∈ n.candidate

theorem weakRel_relC {g : Graph} (hnd : g.ids.Nodup) {a b : NodeId}
    (h : weakRel g a b) : relC g a b := by
  rcases h with h | h
  · obtain ⟨n, hn, rfl, hb⟩ := (adjP_iff hnd).mp h
    exact ⟨n, hn, Finset.mem_insert_self _ _,
      Finset.mem_insert_of_mem (List.mem_toFinset.mpr hb)⟩
  · obtain ⟨n, hn, rfl, hb⟩ := (adjP_iff hnd).mp h
    exact ⟨n, hn, Finset.mem_insert_of_mem (List.mem_toFinset.mpr hb),
      Finset.mem_insert_self _ _⟩

theorem relC_weakConn {g : Graph} (hnd : g.ids.Nodup) {a b : NodeId}
    (h : relC g a b) : weakConn g a b := by
  obtain ⟨n, hn, ha, hb⟩ := h
  have step : ∀ x ∈ n.outIds, weakRel g n.id x := fun x hx =>
    Or.inl ((adjP_iff hnd).mpr ⟨n, hn, rfl, hx⟩)
  have h1 : weakConn g a n.id := by
    rcases Finset.mem_insert.mp ha with rfl | ha'
    · exact Relation.ReflTransGen.refl
    · exact Relation.ReflTransGen.single (Or.symm (step a (List.mem_toFinset.mp ha')))
  have h2 : weakConn g n.id b := by
    rcases Finset.mem_insert.mp hb with rfl | hb'
    · exact Relation.ReflTransGen.refl
    · exact Relation.ReflTransGen.single (step b (List.mem_toFinset.mp hb'))
  exact h1.trans h2

/-- Well-formedness: node identities are distinct and every adjacency
target is a node of the graph. -/
def WF (g : Graph) : Prop :=
  g.ids.Nodup ∧ ∀ n ∈ g.nodes, ∀ v ∈ n.adjacent, v.node_to ∈ g.ids

theorem computeComponents_pairwise (nodes : List Node) :
    (computeComponents nodes).Pairwise Disjoint := by
  rw [computeComponents_eq]
  exact foldl_buildStep_pairwise _ _ List.Pairwise.nil

theorem computeComponents_mem_iff (g : Graph) (hwf : WF g) (x : NodeId) :
    (∃ s ∈ computeComponents g.nodes, x ∈ s) ↔ x ∈ g.ids := by
  rw [computeComponents_eq, buildComponents, foldl_buildStep_mem]
  constructor
  · rintro (⟨s, hs, hx⟩ | ⟨s, hs, hx⟩)
    · obtain ⟨n, hn, rfl⟩ := List.mem_map.mp hs
      rcases Finset.mem_insert.mp hx with rfl | hx'
      · exact List.mem_map_of_mem _ hn
      · obtain ⟨v, hv, rfl⟩ := List.mem_map.mp (List.mem_toFinset.mp hx')
        exact hwf.2 n hn v hv
    · simp at hs
  · intro hx
    obtain ⟨n, hn, rfl⟩ := List.mem_map.mp hx
    exact Or.inl ⟨n.candidate, List.mem_map_of_mem _ hn, Finset.mem_insert_self _ _⟩

theorem computeComponents_sameSet (g : Graph) (hwf : WF g) (a b : NodeId)
    (ha : a ∈ g.ids) :
    (∃ s ∈ computeComponents g.nodes, a ∈ s ∧ b ∈ s) ↔ weakConn g a b := by
  constructor
  · rintro ⟨s, hs, has, hbs⟩
    have hconn : ∀ s ∈ computeComponents g.nodes, ConnSet (weakConn g) s := by
      rw [computeComponents_eq, buildComponents]
      apply foldl_buildStep_conn (weakConn g) (fun x y z h1 h2 => h1.trans h2)
      · intro s hs
        simp at hs
      · intro k hk
        obtain ⟨n, hn, rfl⟩ := List.mem_map.mp hk
        intro x hx y hy
        exact relC_weakConn hwf.1 ⟨n, hn, hx, hy⟩
    exact hconn s hs a has b hbs
  · intro h
    induction h with
    | refl =>
      obtain ⟨s, hs, hx⟩ := (computeComponents_mem_iff g hwf a).mpr ha
      exact ⟨s, hs, hx, hx⟩
    | @tail mid last hab hbc ih =>
      obtain ⟨s1, hs1, has1, hcs1⟩ := ih
      obtain ⟨n, hn, hc, hb⟩ := weakRel_relC hwf.1 hbc
      have hjoin : ∃ s ∈ computeComponents g.nodes, mid ∈ s ∧ last ∈ s := by
        rw [computeComponents_eq, buildComponents]
        exact foldl_buildStep_join _ _ _ _ ⟨n.candidate, List.mem_map_of_mem _ hn, hc, hb⟩
      obtain ⟨s2, hs2, hcs2, hbs2⟩ := hjoin
      have heq := mem_eq_of_pairwise_disjoint (computeComponents_pairwise g.nodes)
        hs1 hs2 hcs1 hcs2
      exact ⟨s1, hs1, has1, heq ▸ hbs2⟩

/-! ### Plumbing lemmas for the mutators -/

theorem find?_map_id_pres {l : List Node} (q : Node → Node)
    (hq : ∀ n, (q n).id = n.id) (x : NodeId) :
    (l.map q).find? (fun n => n.id == x) = (l.find? (fun n => n.id == x)).map q := by
  induction l with
  | nil => rfl
  | cons n rest ih =>
    simp only [List.map_cons]
    by_cases h : n.id = x
    · rw [List.find?_cons_of_pos, List.find?_cons_of_pos] <;> simp [hq, h]
    · rw [List.find?_cons_of_neg, List.find?_cons_of_neg, ih] <;> simp [hq, h]

theorem findNode_mapNode (g : Graph) (i : NodeId) (f : Node → Node)
    (hf : ∀ n, (f n).id = n.id) (x : NodeId) :
    (g.mapNode i f).findNode x =
      (g.findNode x).map (fun n => if n.id == i then f n else n) := by
  unfold Graph.mapNode Graph.findNode
  exact find?_map_id_pres _ (fun n => by by_cases h : n.id = i <;> simp [h, hf]) x

theorem adjacentIds_mapNode (g : Graph) (i : NodeId) (f : Node → Node)
    (hf : ∀ n, (f n).id = n.id) (x : NodeId) :
    (g.mapNode i f).adjacentIds x =
      if x = i then
        (match g.findNode x with
         | some n => (f n).outIds
         | none => [])
      else g.adjacentIds x := by
  unfold Graph.adjacentIds
  rw [findNode_mapNode g i f hf x]
  cases hfx : g.findNode x with
  | none => simp
  | some n =>
    obtain ⟨-, hid⟩ := findNode_mem_id hfx
    by_cases h : x = i
    · simp [hid, h]
    · simp [hid, h]

theorem outIds_addAdjacent (n : Node) (v : Vertex) :
    (n.addAdjacent v).outIds = n.outIds ++ [v.node_to] := by
  simp [Node.addAdjacent, Node.outIds]

theorem outIds_removeAdjacentNode (n : Node) (m : NodeId) :
    (n.removeAdjacentNode m).outIds = n.outIds.filter (fun y => !(y == m)) := by
  unfold Node.removeAdjacentNode Node.outIds
  simp only
  induction n.adjacent with
  | nil => rfl
  | cons v rest ih =>
    by_cases h : v.node_to = m
    · simp [List.filter_cons, h, ih]
    · simp [List.filter_cons, h, ih]

theorem ids_mapNode (g : Graph) (i : NodeId) (f : Node → Node)
    (hf : ∀ n, (f n).id = n.id) : (g.mapNode i f).ids = g.ids := by
  unfold Graph.mapNode Graph.ids
  simp only [List.map_map]
  apply List.map_congr_left
  intro n hn
  by_cases h : n.id = i <;> simp [h, hf]

theorem ids_recalc (g : Graph) : g.recalc.ids = g.ids := rfl

theorem nodes_recalc (g : Graph) : g.recalc.nodes = g.nodes := rfl

theorem adjP_recalc (g : Graph) (x y : NodeId) : adjP g.recalc x y ↔ adjP g x y := Iff.rfl

theorem directed_recalc (g : Graph) : g.recalc.directed = g.directed := rfl

theorem ids_add_vertexRaw (g : Graph) (a b : NodeId) (w : Int) :
    (g.add_vertexRaw a b w).ids = g.ids := by
  unfold Graph.add_vertexRaw
  by_cases h1 : ((a == b && !g.directed) || g.isAdjacent a b) = true
  · rw [if_pos h1]
  · rw [if_neg h1]
    by_cases h2 : g.directed = true
    · rw [if_pos h2,
        ids_mapNode _ a (fun n => n.addAdjacent ⟨a, b, w⟩) (fun n => rfl)]
      rfl
    · rw [if_neg h2,
        ids_mapNode _ b (fun n => n.addAdjacent ⟨b, a, w⟩) (fun n => rfl)]
      show (Graph.mapNode { g with vertices := g.vertices ++ [⟨a, b, w⟩] } a
        (fun n => n.addAdjacent ⟨a, b, w⟩)).ids = g.ids
      rw [ids_mapNode _ a (fun n => n.addAdjacent ⟨a, b, w⟩) (fun n => rfl)]
      rfl

theorem ids_remove_vertexRaw (g : Graph) (a b : NodeId) :
    (g.remove_vertexRaw a b).ids = g.ids := by
  unfold Graph.remove_vertexRaw
  by_cases h2 : g.directed = true
  · rw [if_pos h2, ids_mapNode _ a (fun n => n.removeAdjacentNode b) (fun n => rfl)]
    rfl
  · rw [if_neg h2, ids_mapNode _ b (fun n => n.removeAdjacentNode a) (fun n => rfl),
      ids_mapNode _ a (fun n => n.removeAdjacentNode b) (fun n => rfl)]
    rfl

theorem ids_add_vertex (g : Graph) (a b : NodeId) (w : Int) :
    (g.add_vertex a b w).ids = g.ids := by
  unfold Graph.add_vertex
  rw [ids_recalc, ids_add_vertexRaw]

theorem ids_remove_vertex (g : Graph) (a b : NodeId) :
    (g.remove_vertex a b).ids = g.ids := by
  unfold Graph.remove_vertex
  rw [ids_recalc, ids_remove_vertexRaw]

theorem ids_toggle_vertex (g : Graph) (a b : NodeId) :
    (g.toggle_vertex a b).ids = g.ids := by
  unfold Graph.toggle_vertex
  by_cases h : g.isAdjacent a b = true
  · rw [if_pos h, ids_remove_vertex]
  · rw [if_neg h, ids_add_vertex]

theorem directed_mapNode (g : Graph) (i : NodeId) (f : Node → Node) :
    (g.mapNode i f).directed = g.directed := rfl

theorem directed_add_vertexRaw (g : Graph) (a b : NodeId) (w : Int) :
    (g.add_vertexRaw a b w).directed = g.directed := by
  unfold Graph.add_vertexRaw
  by_cases h1 : ((a == b && !g.directed) || g.isAdjacent a b) = true
  · rw [if_pos h1]
  · rw [if_neg h1]
    by_cases h2 : g.directed = true <;> simp [h2, directed_mapNode]

theorem directed_remove_vertexRaw (g : Graph) (a b : NodeId) :
    (g.remove_vertexRaw a b).directed = g.directed := by
  unfold Graph.remove_vertexRaw
  by_cases h2 : g.directed = true <;> simp [h2, directed_mapNode]

theorem directed_add_vertex (g : Graph) (a b : NodeId) (w : Int) :
    (g.add_vertex a b w).directed = g.directed := by
  unfold Graph.add_vertex
  rw [directed_recalc, directed_add_vertexRaw]

theorem directed_remove_vertex (g : Graph) (a b : NodeId) :
    (g.remove_vertex a b).directed = g.directed := by
  unfold Graph.remove_vertex
  rw [directed_recalc, directed_remove_vertexRaw]

theorem directed_toggle_vertex (g : Graph) (a b : NodeId) :
    (g.toggle_vertex a b).directed = g.directed := by
  unfold Graph.toggle_vertex
  by_cases h : g.isAdjacent a b = true
  · rw [if_pos h, directed_remove_vertex]
  · rw [if_neg h, directed_add_vertex]

theorem adjP_setVertices (g : Graph) (vs : List Vertex) (x y : NodeId) :
    adjP { g with vertices := vs } x y ↔ adjP g x y := Iff.rfl

theorem ids_setVertices (g : Graph) (vs : List Vertex) :
    ({ g with vertices := vs } : Graph).ids = g.ids := rfl

theorem adjP_mapNode_add (g : Graph) (a : NodeId) (v : Vertex) (x y : NodeId) :
    adjP (g.mapNode a (fun n => n.addAdjacent v)) x y ↔
      (adjP g x y ∨ (x = a ∧ y = v.node_to ∧ a ∈ g.ids)) := by
  rw [adjP_iff_mem, adjP_iff_mem,
    adjacentIds_mapNode g a (fun n => n.addAdjacent v) (fun n => rfl) x]
  by_cases hx : x = a
  · subst hx
    rw [if_pos rfl]
    cases hfx : g.findNode x with
    | none =>
      have hids : x ∉ g.ids := by
        intro hmem
        rw [← findNode_isSome_iff, hfx] at hmem
        simp at hmem
      have hadj : g.adjacentIds x = [] := by
        unfold Graph.adjacentIds
        rw [hfx]
      simp [hadj, hids]
    | some n =>
      have hids : x ∈ g.ids := findNode_isSome_iff.mp (by rw [hfx]; rfl)
      have hadj : g.adjacentIds x = n.outIds := by
        unfold Graph.adjacentIds
        rw [hfx]
      simp only [outIds_addAdjacent, List.mem_append, List.mem_singleton, hadj, hids,
        and_true, true_and]
  · simp [hx]

theorem adjP_mapNode_remove (g : Graph) (a m : NodeId) (x y : NodeId) :
    adjP (g.mapNode a (fun n => n.removeAdjacentNode m)) x y ↔
      (adjP g x y ∧ ¬(x = a ∧ y = m)) := by
  rw [adjP_iff_mem, adjP_iff_mem,
    adjacentIds_mapNode g a (fun n => n.removeAdjacentNode m) (fun n => rfl) x]
  by_cases hx : x = a
  · subst hx
    rw [if_pos rfl]
    cases hfx : g.findNode x with
    | none =>
      have hadj : g.adjacentIds x = [] := by
        unfold Graph.adjacentIds
        rw [hfx]
      simp [hadj]
    | some n =>
      have hadj : g.adjacentIds x = n.outIds := by
        unfold Graph.adjacentIds
        rw [hfx]
      simp only [outIds_removeAdjacentNode, List.mem_filter, hadj,
        Bool.not_eq_true', beq_eq_false_iff_ne, ne_eq, true_and, not_and]
  · simp [hx]

theorem adjP_add_vertexRaw_directed (g : Graph) (hd : g.directed = true)
    (a b : NodeId) (w : Int) (x y : NodeId) :
    adjP (g.add_vertexRaw a b w) x y ↔
      (adjP g x y ∨ (¬ adjP g a b ∧ x = a ∧ y = b ∧ a ∈ g.ids)) := by
  unfold Graph.add_vertexRaw
  by_cases hadj : adjP g a b
  · have hb : g.isAdjacent a b = true := hadj
    have hguard : ((a == b && !g.directed) || g.isAdjacent a b) = true := by
      simp [hb]
    rw [if_pos hguard]
    tauto
  · have hb : g.isAdjacent a b = false := by
      rw [Bool.eq_false_iff]
      intro hc
      exact hadj hc
    have hguard : ¬(((a == b && !g.directed) || g.isAdjacent a b) = true) := by
      simp [hd, hb]
    rw [if_neg hguard, if_pos hd]
    simp only [adjP_mapNode_add, adjP_setVertices, ids_setVertices]
    tauto

theorem adjP_add_vertexRaw_undirected (g : Graph) (hd : g.directed = false)
    (a b : NodeId) (w : Int) (x y : NodeId) :
    adjP (g.add_vertexRaw a b w) x y ↔
      (adjP g x y ∨ (a ≠ b ∧ ¬ adjP g a b ∧
        ((x = a ∧ y = b ∧ a ∈ g.ids) ∨ (x = b ∧ y = a ∧ b ∈ g.ids)))) := by
  unfold Graph.add_vertexRaw
  by_cases hab : a = b
  · have hguard : ((a == b && !g.directed) || g.isAdjacent a b) = true := by
      simp [hab, hd]
    rw [if_pos hguard]
    tauto
  · by_cases hadj : adjP g a b
    · have hb : g.isAdjacent a b = true := hadj
      have hguard : ((a == b && !g.directed) || g.isAdjacent a b) = true := by
        simp [hb]
      rw [if_pos hguard]
      tauto
    · have hb : g.isAdjacent a b = false := by
        rw [Bool.eq_false_iff]
        intro hc
        exact hadj hc
      have hguard : ¬(((a == b && !g.directed) || g.isAdjacent a b) = true) := by
        simp [hb, hab]
      rw [if_neg hguard, if_neg (by rw [hd]; simp)]
      simp only [adjP_mapNode_add, adjP_setVertices, ids_setVertices,
        ids_mapNode _ a (fun n => n.addAdjacent ⟨a, b, w⟩) (fun n => rfl)]
      tauto

theorem adjP_remove_vertexRaw_directed (g : Graph) (hd : g.directed = true)
    (a b : NodeId) (x y : NodeId) :
    adjP (g.remove_vertexRaw a b) x y ↔ (adjP g x y ∧ ¬(x = a ∧ y = b)) := by
  unfold Graph.remove_vertexRaw
  rw [if_pos hd]
  simp only [adjP_mapNode_remove, adjP_setVertices]

theorem adjP_remove_vertexRaw_undirected (g : Graph) (hd : g.directed = false)
    (a b : NodeId) (x y : NodeId) :
    adjP (g.remove_vertexRaw a b) x y ↔
      (adjP g x y ∧ ¬(x = a ∧ y = b) ∧ ¬(x = b ∧ y = a)) := by
  unfold Graph.remove_vertexRaw
  rw [if_neg (by rw [hd]; simp)]
  simp only [adjP_mapNode_remove, adjP_setVertices]
  tauto

theorem adjP_add_vertex_directed (g : Graph) (hd : g.directed = true)
    (a b : NodeId) (w : Int) (x y : NodeId) :
    adjP (g.add_vertex a b w) x y ↔
      (adjP g x y ∨ (¬ adjP g a b ∧ x = a ∧ y = b ∧ a ∈ g.ids)) := by
  unfold Graph.add_vertex
  rw [adjP_recalc]
  exact adjP_add_vertexRaw_directed g hd a b w x y

theorem adjP_add_vertex_undirected (g : Graph) (hd : g.directed = false)
    (a b : NodeId) (w : Int) (x y : NodeId) :
    adjP (g.add_vertex a b w) x y ↔
      (adjP g x y ∨ (a ≠ b ∧ ¬ adjP g a b ∧
        ((x = a ∧ y = b ∧ a ∈ g.ids) ∨ (x = b ∧ y = a ∧ b ∈ g.ids)))) := by
  unfold Graph.add_vertex
  rw [adjP_recalc]
  exact adjP_add_vertexRaw_undirected g hd a b w x y

theorem adjP_remove_vertex_directed (g : Graph) (hd : g.directed = true)
    (a b : NodeId) (x y : NodeId) :
    adjP (g.remove_vertex a b) x y ↔ (adjP g x y ∧ ¬(x = a ∧ y = b)) := by
  unfold Graph.remove_vertex
  rw [adjP_recalc]
  exact adjP_remove_vertexRaw_directed g hd a b x y

theorem adjP_remove_vertex_undirected (g : Graph) (hd : g.directed = false)
    (a b : NodeId) (x y : NodeId) :
    adjP (g.remove_vertex a b) x y ↔
      (adjP g x y ∧ ¬(x = a ∧ y = b) ∧ ¬(x = b ∧ y = a)) := by
  unfold Graph.remove_vertex
  rw [adjP_recalc]
  exact adjP_remove_vertexRaw_undirected g hd a b x y

theorem adjP_toggle_directed (g : Graph) (hd : g.directed = true)
    (a b : NodeId) (x y : NodeId) :
    adjP (g.toggle_vertex a b) x y ↔
      (if x = a ∧ y = b then ¬ adjP g a b ∧ a ∈ g.ids else adjP g x y) := by
  unfold Graph.toggle_vertex
  by_cases hadj : adjP g a b
  · rw [if_pos (show g.isAdjacent a b = true from hadj)]
    rw [adjP_remove_vertex_directed g hd a b x y]
    by_cases hxy : x = a ∧ y = b
    · obtain ⟨rfl, rfl⟩ := hxy
      simp [hadj]
    · simp [hxy]
  · rw [if_neg (show ¬(g.isAdjacent a b = true) from hadj)]
    rw [adjP_add_vertex_directed g hd a b 1 x y]
    by_cases hxy : x = a ∧ y = b
    · obtain ⟨rfl, rfl⟩ := hxy
      rw [if_pos (And.intro rfl rfl)]
      constructor
      · rintro (h | ⟨h1, -, -, hmem⟩)
        · exact absurd h hadj
        · exact ⟨h1, hmem⟩
      · rintro ⟨h1, hmem⟩
        exact Or.inr ⟨h1, rfl, rfl, hmem⟩
    · simp only [if_neg hxy]
      constructor
      · rintro (h | ⟨-, rfl, rfl, -⟩)
        · exact h
        · exact absurd ⟨rfl, rfl⟩ hxy
      · exact Or.inl

theorem adjP_toggle_undirected (g : Graph) (hd : g.directed = false)
    (a b : NodeId) (hab : a ≠ b) (ha : a ∈ g.ids) (hb : b ∈ g.ids)
    (hsym : adjP g a b ↔ adjP g b a) (x y : NodeId) :
    adjP (g.toggle_vertex a b) x y ↔
      (if (x = a ∧ y = b) ∨ (x = b ∧ y = a) then ¬ adjP g a b else adjP g x y) := by
  unfold Graph.toggle_vertex
  by_cases hadj : adjP g a b
  · rw [if_pos (show g.isAdjacent a b = true from hadj)]
    rw [adjP_remove_vertex_undirected g hd a b x y]
    by_cases hxy : (x = a ∧ y = b) ∨ (x = b ∧ y = a)
    · rw [if_pos hxy]
      rcases hxy with ⟨rfl, rfl⟩ | ⟨rfl, rfl⟩ <;> simp [hadj]
    · rw [if_neg hxy]
      push_neg at hxy
      tauto
  · rw [if_neg (show ¬(g.isAdjacent a b = true) from hadj)]
    rw [adjP_add_vertex_undirected g hd a b 1 x y]
    by_cases hxy : (x = a ∧ y = b) ∨ (x = b ∧ y = a)
    · rw [if_pos hxy]
      have hba : ¬ adjP g b a := fun h => hadj (hsym.mpr h)
      rcases hxy with ⟨rfl, rfl⟩ | ⟨rfl, rfl⟩ <;> simp [hadj, hba, hab, ha, hb]
    · rw [if_neg hxy]
      push_neg at hxy
      constructor
      · rintro (h | ⟨-, -, ⟨rfl, rfl, -⟩ | ⟨rfl, rfl, -⟩⟩)
        · exact h
        · exact absurd rfl (hxy.1 rfl)
        · exact absurd rfl (hxy.2 rfl)
      · exact Or.inl

theorem toggle_self_undirected (g : Graph) (hd : g.directed = false)
    (a : NodeId) (hnl : ¬ adjP g a a) : g.toggle_vertex a a = g.recalc := by
  unfold Graph.toggle_vertex
  rw [if_neg (show ¬(g.isAdjacent a a = true) from hnl)]
  unfold Graph.add_vertex Graph.add_vertexRaw
  rw [if_pos (by simp [hd])]

theorem ids_add_node (g : Graph) (i : NodeId) (lab : Option String) :
    (g.add_node i lab).ids = g.ids ++ [i] := by
  unfold Graph.add_node
  rw [ids_recalc]
  show (g.nodes ++ [(⟨i, lab, []⟩ : Node)]).map (fun n => n.id) = _
  simp [Graph.ids]

theorem adjP_add_node (g : Graph) (i : NodeId) (lab : Option String) (x y : NodeId) :
    adjP (g.add_node i lab) x y ↔ adjP g x y := by
  unfold Graph.add_node
  rw [adjP_recalc, adjP_iff_mem, adjP_iff_mem]
  unfold Graph.adjacentIds Graph.findNode
  show y ∈ (match (g.nodes ++ [(⟨i, lab, []⟩ : Node)]).find? (fun n => n.id == x) with
    | some n => n.outIds
    | none => []) ↔ _
  rw [List.find?_append]
  cases hf : g.nodes.find? (fun n => n.id == x) with
  | some n => simp
  | none =>
    simp only [Option.none_or]
    by_cases h : i = x
    · rw [List.find?_cons_of_pos _ (by simp [h])]
      simp [Node.outIds]
    · rw [List.find?_cons_of_neg _ (by simp [h])]
      simp

theorem find?_eraseP_of_ne {l : List Node} (x i : NodeId) (hxi : x ≠ i) :
    (l.eraseP (fun n => n.id == i)).find? (fun n => n.id == x) =
      l.find? (fun n => n.id == x) := by
  induction l with
  | nil => rfl
  | cons n rest ih =>
    by_cases h : n.id = i
    · rw [List.eraseP_cons_of_pos (by simp [h])]
      rw [List.find?_cons_of_neg _ (by simp [h]; exact fun he => hxi he.symm)]
    · rw [List.eraseP_cons_of_neg (by simp [h])]
      by_cases h2 : n.id = x
      · rw [List.find?_cons_of_pos _ (by simp [h2]), List.find?_cons_of_pos _ (by simp [h2])]
      · rw [List.find?_cons_of_neg _ (by simp [h2]), List.find?_cons_of_neg _ (by simp [h2]), ih]

theorem find?_eraseP_self {l : List Node}
    (hnd : (l.map (fun n => n.id)).Nodup) (i : NodeId) :
    (l.eraseP (fun n => n.id == i)).find? (fun n => n.id == i) = none := by
  induction l with
  | nil => rfl
  | cons n rest ih =>
    simp only [List.map_cons, List.nodup_cons] at hnd
    obtain ⟨hni, hrest⟩ := hnd
    by_cases h : n.id = i
    · rw [List.eraseP_cons_of_pos (by simp [h])]
      rw [List.find?_eq_none]
      intro m hm
      simp only [beq_iff_eq]
      intro he
      exact hni (by rw [h, ← he]; exact List.mem_map_of_mem _ hm)
    · rw [List.eraseP_cons_of_neg (by simp [h]), List.find?_cons_of_neg _ (by simp [h]),
        ih hrest]

theorem ids_eraseP (l : List Node) (i : NodeId) :
    (l.eraseP (fun n => n.id == i)).map (fun n => n.id) =
      (l.map (fun n => n.id)).eraseP (fun x => x == i) := by
  induction l with
  | nil => rfl
  | cons n rest ih =>
    by_cases h : n.id = i
    · rw [List.eraseP_cons_of_pos (by simp [h]), List.map_cons,
        List.eraseP_cons_of_pos (by simp [h])]
    · rw [List.eraseP_cons_of_neg (by simp [h]), List.map_cons, List.map_cons,
        List.eraseP_cons_of_neg (by simp [h]), ih]

theorem mem_eraseP_beq {l : List NodeId} (hnd : l.Nodup) (x i : NodeId) :
    x ∈ l.eraseP (fun y => y == i) ↔ (x ∈ l ∧ x ≠ i) := by
  induction l with
  | nil => simp
  | cons a rest ih =>
    simp only [List.nodup_cons] at hnd
    obtain ⟨ha, hrest⟩ := hnd
    by_cases h : a = i
    · rw [List.eraseP_cons_of_pos (by simp [h])]
      subst h
      constructor
      · intro hx
        refine ⟨List.mem_cons_of_mem _ hx, fun he => ?_⟩
        subst he
        exact ha hx
      · rintro ⟨hx, hxa⟩
        rcases List.mem_cons.mp hx with rfl | hx'
        · exact absurd rfl hxa
        · exact hx'
    · rw [List.eraseP_cons_of_neg (by simp [h])]
      simp only [List.mem_cons]
      rw [ih hrest]
      constructor
      · rintro (rfl | ⟨hx, hxi⟩)
        · exact ⟨Or.inl rfl, h⟩
        · exact ⟨Or.inr hx, hxi⟩
      · rintro ⟨rfl | hx, hxi⟩
        · exact Or.inl rfl
        · exact Or.inr ⟨hx, hxi⟩

theorem ids_remove_node_present (g : Graph) (i : NodeId)
    (hp : (g.findNode i).isSome = true) :
    (g.remove_node i).ids = g.ids.eraseP (fun x => x == i) := by
  unfold Graph.remove_node
  rw [if_pos hp, ids_recalc]
  show ((g.nodes.eraseP (fun n => n.id == i)).map (fun n => n.removeAdjacentNode i)).map
      (fun n => n.id) = _
  rw [List.map_map]
  have hcomp : ((fun n : Node => n.id) ∘ fun n : Node => n.removeAdjacentNode i) =
      (fun n : Node => n.id) := rfl
  rw [hcomp, ids_eraseP]
  rfl

theorem mem_ids_remove_node {g : Graph} (hnd : g.ids.Nodup) (i x : NodeId) :
    x ∈ (g.remove_node i).ids ↔ (x ∈ g.ids ∧ x ≠ i) := by
  by_cases hp : (g.findNode i).isSome = true
  · rw [ids_remove_node_present g i hp, mem_eraseP_beq hnd]
  · unfold Graph.remove_node
    rw [if_neg hp]
    have hi : i ∉ g.ids := fun hmem => hp (findNode_isSome_iff.mpr hmem)
    constructor
    · intro hx
      exact ⟨hx, fun he => hi (he ▸ hx)⟩
    · exact fun h => h.1

theorem nodup_ids_remove_node {g : Graph} (hnd : g.ids.Nodup) (i : NodeId) :
    (g.remove_node i).ids.Nodup := by
  by_cases hp : (g.findNode i).isSome = true
  · rw [ids_remove_node_present g i hp]
    exact (List.eraseP_sublist _).nodup hnd
  · unfold Graph.remove_node
    rw [if_neg hp]
    exact hnd

theorem adjP_remove_node {g : Graph} (hnd : g.ids.Nodup)
    (hcl : ∀ n ∈ g.nodes, ∀ v ∈ n.adjacent, v.node_to ∈ g.ids)
    (i : NodeId) (x y : NodeId) :
    adjP (g.remove_node i) x y ↔ (adjP g x y ∧ x ≠ i ∧ y ≠ i) := by
  by_cases hp : (g.findNode i).isSome = true
  · unfold Graph.remove_node
    rw [if_pos hp, adjP_recalc, adjP_iff_mem, adjP_iff_mem]
    show y ∈ Graph.adjacentIds ⟨g.directed, g.weighted,
      (g.nodes.eraseP (fun n => n.id == i)).map (fun n => n.removeAdjacentNode i), _, _⟩ x ↔ _
    unfold Graph.adjacentIds Graph.findNode
    simp only
    rw [find?_map_id_pres (fun n => n.removeAdjacentNode i) (fun n => rfl) x]
    by_cases hxi : x = i
    · subst hxi
      rw [find?_eraseP_self hnd]
      simp
    · rw [find?_eraseP_of_ne x i hxi]
      cases hf : g.nodes.find? (fun n => n.id == x) with
      | none => simp
      | some n =>
        simp only [Option.map_some', outIds_removeAdjacentNode, List.mem_filter,
          Bool.not_eq_true', beq_eq_false_iff_ne, ne_eq]
        tauto
  · unfold Graph.remove_node
    rw [if_neg hp]
    have hi : i ∉ g.ids := fun hmem => hp (findNode_isSome_iff.mpr hmem)
    constructor
    · intro h
      refine ⟨h, fun he => hi (he ▸ adjP_mem_left h), fun he => ?_⟩
      subst he
      obtain ⟨n, hn, -, hout⟩ := (adjP_iff hnd).mp h
      obtain ⟨v, hv, rfl⟩ := List.mem_map.mp hout
      exact hi (hcl n hn v hv)
    · exact fun h => h.1

/-! ### The symmetrization pass of `set_directed` -/

/-- Adjacency targets of every node are nodes of the graph. -/
def Closed (g : Graph) : Prop :=
  ∀ n ∈ g.nodes, ∀ v ∈ n.adjacent, v.node_to ∈ g.ids

/-- The inner loop of `set_directed` for one node, generalized over the
snapshot of its out-neighbours. -/
def symInner (i : NodeId) (g : Graph) (l : List NodeId) : Graph :=
  l.foldl (fun h m => if i == m then h.remove_vertex i m else h.add_vertex m i 1) g

theorem symStep_eq (g : Graph) (i : NodeId) :
    g.symStep i = symInner i g (g.adjacentIds i) := rfl

theorem adjacentIds_subset_ids {g : Graph} (hcl : Closed g) (i : NodeId) :
    ∀ m ∈ g.adjacentIds i, m ∈ g.ids := by
  intro m hm
  unfold Graph.adjacentIds at hm
  cases hf : g.findNode i with
  | none => rw [hf] at hm; simp at hm
  | some n =>
    rw [hf] at hm
    obtain ⟨hn, -⟩ := findNode_mem_id hf
    obtain ⟨v, hv, rfl⟩ := List.mem_map.mp hm
    exact hcl n hn v hv

theorem ids_symInner (i : NodeId) (g : Graph) (l : List NodeId) :
    (symInner i g l).ids = g.ids := by
  induction l generalizing g with
  | nil => rfl
  | cons m rest ih =>
    have hstep : symInner i g (m :: rest) =
        symInner i (if i == m then g.remove_vertex i m else g.add_vertex m i 1) rest := rfl
    rw [hstep, ih]
    by_cases h : i = m
    · rw [if_pos (by simp [h]), ids_remove_vertex]
    · rw [if_neg (by simp [h]), ids_add_vertex]

theorem directed_symInner (i : NodeId) (g : Graph) (l : List NodeId) :
    (symInner i g l).directed = g.directed := by
  induction l generalizing g with
  | nil => rfl
  | cons m rest ih =>
    have hstep : symInner i g (m :: rest) =
        symInner i (if i == m then g.remove_vertex i m else g.add_vertex m i 1) rest := rfl
    rw [hstep, ih]
    by_cases h : i = m
    · rw [if_pos (by simp [h]), directed_remove_vertex]
    · rw [if_neg (by simp [h]), directed_add_vertex]

theorem adjP_symInner (i : NodeId) (g : Graph) (l : List NodeId)
    (hd : g.directed = true) (hl : ∀ m ∈ l, m ∈ g.ids) (x y : NodeId) :
    adjP (symInner i g l) x y ↔
      ((adjP g x y ∧ ¬(x = i ∧ y = i ∧ i ∈ l)) ∨ (y = i ∧ x ∈ l ∧ x ≠ i)) := by
  induction l generalizing g with
  | nil => simp [symInner]
  | cons m rest ih =>
    have hstep : symInner i g (m :: rest) =
        symInner i (if i == m then g.remove_vertex i m else g.add_vertex m i 1) rest := rfl
    by_cases h : i = m
    · subst h
      rw [hstep, if_pos (by simp)]
      rw [ih (g.remove_vertex i i)
        (by rw [directed_remove_vertex]; exact hd)
        (fun m' hm' => by
          rw [ids_remove_vertex]
          exact hl m' (List.mem_cons_of_mem _ hm'))]
      rw [adjP_remove_vertex_directed g hd i i x y]
      constructor
      · rintro (⟨⟨h1, h2⟩, h3⟩ | ⟨rfl, h4, h5⟩)
        · exact Or.inl ⟨h1, fun hc => h2 ⟨hc.1, hc.2.1⟩⟩
        · exact Or.inr ⟨rfl, List.mem_cons_of_mem _ h4, h5⟩
      · rintro (⟨h1, h2⟩ | ⟨rfl, hx, h5⟩)
        · exact Or.inl ⟨⟨h1, fun hc => h2 ⟨hc.1, hc.2, List.mem_cons_self _ _⟩⟩,
            fun hc => h2 ⟨hc.1, hc.2.1, List.mem_cons_of_mem _ hc.2.2⟩⟩
        · rcases List.mem_cons.mp hx with rfl | h4
          · exact absurd rfl h5
          · exact Or.inr ⟨rfl, h4, h5⟩
    · rw [hstep, if_neg (by simp [h])]
      have hm : m ∈ g.ids := hl m (List.mem_cons_self _ _)
      rw [ih (g.add_vertex m i 1)
        (by rw [directed_add_vertex]; exact hd)
        (fun m' hm' => by
          rw [ids_add_vertex]
          exact hl m' (List.mem_cons_of_mem _ hm'))]
      rw [adjP_add_vertex_directed g hd m i 1 x y]
      constructor
      · rintro (⟨(h1 | ⟨h1, rfl, rfl, h2⟩), h3⟩ | ⟨rfl, h4, h5⟩)
        · refine Or.inl ⟨h1, fun hc => ?_⟩
          rcases List.mem_cons.mp hc.2.2 with he | hmem
          · exact h he
          · exact h3 ⟨hc.1, hc.2.1, hmem⟩
        · exact Or.inr ⟨rfl, List.mem_cons_self _ _, fun he => h he.symm⟩
        · exact Or.inr ⟨rfl, List.mem_cons_of_mem _ h4, h5⟩
      · rintro (⟨h1, h2⟩ | ⟨rfl, hx, h5⟩)
        · exact Or.inl ⟨Or.inl h1,
            fun hc => h2 ⟨hc.1, hc.2.1, List.mem_cons_of_mem _ hc.2.2⟩⟩
        · rcases List.mem_cons.mp hx with rfl | h4
          · by_cases hadj : adjP g x y
            · exact Or.inl ⟨Or.inl hadj, fun hc => h5 hc.1⟩
            · exact Or.inl ⟨Or.inr ⟨hadj, rfl, rfl, hm⟩, fun hc => h5 hc.1⟩
          · exact Or.inr ⟨rfl, h4, h5⟩

theorem closed_setVertices {g : Graph} {vs : List Vertex} (hcl : Closed g) :
    Closed { g with vertices := vs } := hcl

theorem closed_recalc {g : Graph} (hcl : Closed g) : Closed g.recalc := hcl

theorem closed_mapNode_add {g : Graph} (a : NodeId) (v : Vertex)
    (hv : v.node_to ∈ g.ids) (hcl : Closed g) :
    Closed (g.mapNode a (fun n => n.addAdjacent v)) := by
  intro n' hn' v' hv'
  rw [show (g.mapNode a (fun n => n.addAdjacent v)).ids = g.ids
    from ids_mapNode g a (fun n => n.addAdjacent v) (fun n => rfl)]
  obtain ⟨n, hn, rfl⟩ := List.mem_map.mp hn'
  by_cases h : (n.id == a) = true
  · rw [if_pos h] at hv'
    simp only [Node.addAdjacent] at hv'
    rcases List.mem_append.mp hv' with h1 | h1
    · exact hcl n hn v' h1
    · rw [List.mem_singleton] at h1
      subst h1
      exact hv
  · rw [if_neg h] at hv'
    exact hcl n hn v' hv'

theorem closed_mapNode_remove {g : Graph} (a m : NodeId) (hcl : Closed g) :
    Closed (g.mapNode a (fun n => n.removeAdjacentNode m)) := by
  intro n' hn' v' hv'
  rw [show (g.mapNode a (fun n => n.removeAdjacentNode m)).ids = g.ids
    from ids_mapNode g a (fun n => n.removeAdjacentNode m) (fun n => rfl)]
  obtain ⟨n, hn, rfl⟩ := List.mem_map.mp hn'
  by_cases h : (n.id == a) = true
  · rw [if_pos h] at hv'
    simp only [Node.removeAdjacentNode] at hv'
    exact hcl n hn v' (List.mem_of_mem_filter hv')
  · rw [if_neg h] at hv'
    exact hcl n hn v' hv'

theorem closed_add_vertexRaw {g : Graph} (a b : NodeId) (w : Int)
    (ha : a ∈ g.ids) (hb : b ∈ g.ids) (hcl : Closed g) :
    Closed (g.add_vertexRaw a b w) := by
  unfold Graph.add_vertexRaw
  by_cases h1 : ((a == b && !g.directed) || g.isAdjacent a b) = true
  · rw [if_pos h1]
    exact hcl
  · rw [if_neg h1]
    by_cases h2 : g.directed = true
    · rw [if_pos h2]
      exact closed_mapNode_add a ⟨a, b, w⟩ hb hcl
    · rw [if_neg h2]
      have hcl1 := closed_mapNode_add (g := { g with vertices := g.vertices ++ [⟨a, b, w⟩] })
        a ⟨a, b, w⟩ hb hcl
      apply closed_mapNode_add b ⟨b, a, w⟩ _ hcl1
      show a ∈ (Graph.mapNode _ a _).ids
      rw [ids_mapNode _ a (fun n => n.addAdjacent ⟨a, b, w⟩) (fun n => rfl)]
      exact ha

theorem closed_remove_vertexRaw {g : Graph} (a b : NodeId) (hcl : Closed g) :
    Closed (g.remove_vertexRaw a b) := by
  unfold Graph.remove_vertexRaw
  by_cases h2 : g.directed = true
  · rw [if_pos h2]
    exact closed_mapNode_remove a b hcl
  · rw [if_neg h2]
    exact closed_mapNode_remove b a (closed_mapNode_remove a b hcl)

theorem closed_add_vertex {g : Graph} (a b : NodeId) (w : Int)
    (ha : a ∈ g.ids) (hb : b ∈ g.ids) (hcl : Closed g) :
    Closed (g.add_vertex a b w) :=
  closed_recalc (closed_add_vertexRaw a b w ha hb hcl)

theorem closed_remove_vertex {g : Graph} (a b : NodeId) (hcl : Closed g) :
    Closed (g.remove_vertex a b) :=
  closed_recalc (closed_remove_vertexRaw a b hcl)

theorem closed_toggle_vertex {g : Graph} (a b : NodeId)
    (ha : a ∈ g.ids) (hb : b ∈ g.ids) (hcl : Closed g) :
    Closed (g.toggle_vertex a b) := by
  unfold Graph.toggle_vertex
  by_cases h : g.isAdjacent a b = true
  · rw [if_pos h]
    exact closed_remove_vertex a b hcl
  · rw [if_neg h]
    exact closed_add_vertex a b 1 ha hb hcl

theorem closed_symInner (i : NodeId) (g : Graph) (l : List NodeId)
    (hi : i ∈ g.ids) (hl : ∀ m ∈ l, m ∈ g.ids) (hcl : Closed g) :
    Closed (symInner i g l) := by
  induction l generalizing g with
  | nil => exact hcl
  | cons m rest ih =>
    have hstep : symInner i g (m :: rest) =
        symInner i (if i == m then g.remove_vertex i m else g.add_vertex m i 1) rest := rfl
    rw [hstep]
    by_cases h : i = m
    · rw [if_pos (by simp [h])]
      exact ih (g.remove_vertex i m)
        (by rw [ids_remove_vertex]; exact hi)
        (fun m' hm' => by rw [ids_remove_vertex]; exact hl m' (List.mem_cons_of_mem _ hm'))
        (closed_remove_vertex i m hcl)
    · rw [if_neg (by simp [h])]
      exact ih (g.add_vertex m i 1)
        (by rw [ids_add_vertex]; exact hi)
        (fun m' hm' => by rw [ids_add_vertex]; exact hl m' (List.mem_cons_of_mem _ hm'))
        (closed_add_vertex m i 1 (hl m (List.mem_cons_self _ _)) hi hcl)

theorem adjacentIds_eq_nil_of_not_mem {g : Graph} {v : NodeId} (hv : v ∉ g.ids) :
    g.adjacentIds v = [] := by
  unfold Graph.adjacentIds
  cases hf : g.findNode v with
  | none => rfl
  | some n => exact absurd (findNode_isSome_iff.mp (by rw [hf]; rfl)) hv

theorem closed_symStep (g : Graph) (v : NodeId) (hcl : Closed g) :
    Closed (g.symStep v) := by
  by_cases hv : v ∈ g.ids
  · rw [symStep_eq]
    exact closed_symInner v g _ hv (adjacentIds_subset_ids hcl v) hcl
  · rw [symStep_eq, adjacentIds_eq_nil_of_not_mem hv]
    exact hcl

theorem ids_symStep (g : Graph) (v : NodeId) : (g.symStep v).ids = g.ids := by
  rw [symStep_eq, ids_symInner]

theorem directed_symStep (g : Graph) (v : NodeId) :
    (g.symStep v).directed = g.directed := by
  rw [symStep_eq, directed_symInner]

theorem adjP_symStep (g : Graph) (hd : g.directed = true) (hcl : Closed g)
    (i x y : NodeId) :
    adjP (g.symStep i) x y ↔
      ((adjP g x y ∧ ¬(x = i ∧ y = i)) ∨ (y = i ∧ adjP g i x ∧ x ≠ i)) := by
  rw [symStep_eq, adjP_symInner i g _ hd (adjacentIds_subset_ids hcl i) x y]
  have hmem : ∀ z, z ∈ g.adjacentIds i ↔ adjP g i z := fun z => adjP_iff_mem.symm
  constructor
  · rintro (⟨h1, h2⟩ | ⟨rfl, h3, h4⟩)
    · refine Or.inl ⟨h1, fun hxy => h2 ⟨hxy.1, hxy.2, (hmem i).mpr ?_⟩⟩
      rw [hxy.1, hxy.2] at h1
      exact h1
    · exact Or.inr ⟨rfl, (hmem x).mp h3, h4⟩
  · rintro (⟨h1, h2⟩ | ⟨rfl, h3, h4⟩)
    · exact Or.inl ⟨h1, fun hc => h2 ⟨hc.1, hc.2.1⟩⟩
    · exact Or.inr ⟨rfl, (hmem x).mpr h3, h4⟩

/-- The per-node guarantee established by the symmetrization pass: no
self-loop, and every outgoing adjacency is mirrored. -/
def SymGood (g : Graph) (u : NodeId) : Prop :=
  ¬ adjP g u u ∧ ∀ m, adjP g u m → adjP g m u

theorem symStep_preserves_symGood (g : Graph) (hd : g.directed = true)
    (hcl : Closed g) (v u : NodeId) (huv : u ≠ v) (hu : SymGood g u) :
    SymGood (g.symStep v) u := by
  obtain ⟨hloop, hsymu⟩ := hu
  constructor
  · rw [adjP_symStep g hd hcl v u u]
    rintro (⟨h1, -⟩ | ⟨he, -, -⟩)
    · exact hloop h1
    · exact huv he
  · intro m
    rw [adjP_symStep g hd hcl v u m, adjP_symStep g hd hcl v m u]
    rintro (⟨h1, -⟩ | ⟨rfl, h3, -⟩)
    · exact Or.inl ⟨hsymu m h1, fun hc => huv hc.2⟩
    · exact Or.inl ⟨h3, fun hc => huv hc.2⟩

theorem symStep_symGood_self (g : Graph) (hd : g.directed = true)
    (hcl : Closed g) (v : NodeId) : SymGood (g.symStep v) v := by
  constructor
  · rw [adjP_symStep g hd hcl v v v]
    rintro (⟨-, h2⟩ | ⟨-, -, h4⟩)
    · exact h2 ⟨rfl, rfl⟩
    · exact h4 rfl
  · intro m
    rw [adjP_symStep g hd hcl v v m, adjP_symStep g hd hcl v m v]
    rintro (⟨h1, h2⟩ | ⟨rfl, -, h4⟩)
    · exact Or.inr ⟨rfl, h1, fun he => h2 ⟨rfl, he⟩⟩
    · exact absurd rfl h4

theorem symFold_good (L : List NodeId) (g : Graph) (hd : g.directed = true)
    (hcl : Closed g) (hLnd : L.Nodup)
    (done : List NodeId) (hdone : ∀ u ∈ done, SymGood g u)
    (hdisj : ∀ u ∈ done, u ∉ L) :
    (L.foldl Graph.symStep g).directed = true ∧
    Closed (L.foldl Graph.symStep g) ∧
    (L.foldl Graph.symStep g).ids = g.ids ∧
    ∀ u, u ∈ done ∨ u ∈ L → SymGood (L.foldl Graph.symStep g) u := by
  induction L generalizing g done with
  | nil =>
    exact ⟨hd, hcl, rfl, fun u hu => hdone u (hu.resolve_right (by simp))⟩
  | cons v rest ih =>
    obtain ⟨hvL, hrest⟩ := List.nodup_cons.mp hLnd
    have hd' : (g.symStep v).directed = true := by rw [directed_symStep]; exact hd
    have hcl' : Closed (g.symStep v) := closed_symStep g v hcl
    have hids' : (g.symStep v).ids = g.ids := ids_symStep g v
    have hdone' : ∀ u ∈ done ++ [v], SymGood (g.symStep v) u := by
      intro u hu
      rcases List.mem_append.mp hu with hu' | hu'
      · exact symStep_preserves_symGood g hd hcl v u
          (fun he => (hdisj u hu') (he ▸ List.mem_cons_self _ _)) (hdone u hu')
      · rw [List.mem_singleton] at hu'
        subst hu'
        exact symStep_symGood_self g hd hcl u
    have hdisj' : ∀ u ∈ done ++ [v], u ∉ rest := by
      intro u hu
      rcases List.mem_append.mp hu with hu' | hu'
      · exact fun hr => (hdisj u hu') (List.mem_cons_of_mem _ hr)
      · rw [List.mem_singleton] at hu'
        subst hu'
        exact hvL
    obtain ⟨h1, h2, h3, h4⟩ := ih (g.symStep v) hd' hcl' hrest (done ++ [v]) hdone' hdisj'
    refine ⟨h1, h2, h3.trans hids', fun u hu => h4 u ?_⟩
    rcases hu with hu | hu
    · exact Or.inl (List.mem_append_left _ hu)
    · rcases List.mem_cons.mp hu with rfl | hu'
      · exact Or.inl (List.mem_append_right _ (List.mem_singleton_self _))
      · exact Or.inr hu'

/-! ### The graph invariant maintained by every operation -/

/-- `components` is exactly the recomputation from the current nodes. -/
def CompsInv (g : Graph) : Prop := g.components = computeComponents g.nodes

theorem compsInv_recalc (g : Graph) : CompsInv g.recalc := rfl

theorem compsInv_add_vertex (g : Graph) (a b : NodeId) (w : Int) :
    CompsInv (g.add_vertex a b w) := rfl

theorem compsInv_remove_vertex (g : Graph) (a b : NodeId) :
    CompsInv (g.remove_vertex a b) := rfl

theorem compsInv_toggle_vertex (g : Graph) (a b : NodeId) :
    CompsInv (g.toggle_vertex a b) := by
  unfold Graph.toggle_vertex
  by_cases h : g.isAdjacent a b = true
  · rw [if_pos h]
    exact compsInv_remove_vertex g a b
  · rw [if_neg h]
    exact compsInv_add_vertex g a b 1

theorem compsInv_add_node (g : Graph) (i : NodeId) (lab : Option String) :
    CompsInv (g.add_node i lab) := rfl

theorem compsInv_remove_node (g : Graph) (i : NodeId) (h : CompsInv g) :
    CompsInv (g.remove_node i) := by
  unfold Graph.remove_node
  by_cases hp : (g.findNode i).isSome = true
  · rw [if_pos hp]
    exact compsInv_recalc _
  · rw [if_neg hp]
    exact h

theorem compsInv_symInner (i : NodeId) (g : Graph) (l : List NodeId)
    (h : CompsInv g) : CompsInv (symInner i g l) := by
  induction l generalizing g with
  | nil => exact h
  | cons m rest ih =>
    have hstep : symInner i g (m :: rest) =
        symInner i (if i == m then g.remove_vertex i m else g.add_vertex m i 1) rest := rfl
    rw [hstep]
    by_cases hm : i = m
    · rw [if_pos (by simp [hm])]
      exact ih _ (compsInv_remove_vertex g i m)
    · rw [if_neg (by simp [hm])]
      exact ih _ (compsInv_add_vertex g m i 1)

theorem compsInv_symStep (g : Graph) (v : NodeId) (h : CompsInv g) :
    CompsInv (g.symStep v) := by
  rw [symStep_eq]
  exact compsInv_symInner v g _ h

theorem compsInv_symFold (L : List NodeId) (g : Graph) (h : CompsInv g) :
    CompsInv (L.foldl Graph.symStep g) := by
  induction L generalizing g with
  | nil => exact h
  | cons v rest ih => exact ih _ (compsInv_symStep g v h)

theorem closed_add_node {g : Graph} (i : NodeId) (lab : Option String)
    (hcl : Closed g) : Closed (g.add_node i lab) := by
  intro n' hn' v' hv'
  rw [ids_add_node]
  have hn'' : n' ∈ g.nodes ++ [(⟨i, lab, []⟩ : Node)] := hn'
  rcases List.mem_append.mp hn'' with h1 | h1
  · exact List.mem_append_left _ (hcl n' h1 v' hv')
  · rw [List.mem_singleton] at h1
    subst h1
    simp at hv'

theorem closed_remove_node {g : Graph} (hnd : g.ids.Nodup) (hcl : Closed g)
    (i : NodeId) : Closed (g.remove_node i) := by
  by_cases hp : (g.findNode i).isSome = true
  · intro n' hn' v' hv'
    rw [mem_ids_remove_node hnd]
    have hn'' : n' ∈ (g.remove_node i).nodes := hn'
    have hnodes : (g.remove_node i).nodes =
        (g.nodes.eraseP (fun n => n.id == i)).map (fun n => n.removeAdjacentNode i) := by
      unfold Graph.remove_node
      rw [if_pos hp]
      rfl
    rw [hnodes] at hn''
    obtain ⟨n, hn, rfl⟩ := List.mem_map.mp hn''
    simp only [Node.removeAdjacentNode] at hv'
    have hv'' := List.mem_of_mem_filter hv'
    have hne : v'.node_to ≠ i := by
      have hf := List.of_mem_filter hv'
      simpa using hf
    exact ⟨hcl n ((List.eraseP_sublist _).mem hn) v' hv'', hne⟩
  · unfold Graph.remove_node
    rw [if_neg hp]
    exact hcl

theorem directed_add_node (g : Graph) (i : NodeId) (lab : Option String) :
    (g.add_node i lab).directed = g.directed := rfl

theorem directed_remove_node (g : Graph) (i : NodeId) :
    (g.remove_node i).directed = g.directed := by
  unfold Graph.remove_node
  by_cases hp : (g.findNode i).isSome = true
  · rw [if_pos hp]
    rfl
  · rw [if_neg hp]

theorem nodup_add_node {g : Graph} (hnd : g.ids.Nodup) {i : NodeId}
    (hfresh : i ∉ g.ids) (lab : Option String) : (g.add_node i lab).ids.Nodup := by
  rw [ids_add_node]
  simp [List.nodup_append, hnd, hfresh]

/-- The invariant carried through the pair folds of `complement` and
`reorient`. -/
def MidInv (h : Graph) : Prop :=
  h.ids.Nodup ∧ Closed h ∧ CompsInv h ∧
  (h.directed = false →
    (∀ a b, adjP h a b ↔ adjP h b a) ∧ (∀ a, ¬ adjP h a a))

theorem midInv_toggle (h : Graph) (a b : NodeId) (ha : a ∈ h.ids) (hb : b ∈ h.ids)
    (hm : MidInv h) : MidInv (h.toggle_vertex a b) := by
  obtain ⟨hnd, hcl, hci, hundir⟩ := hm
  refine ⟨by rw [ids_toggle_vertex]; exact hnd,
    closed_toggle_vertex a b ha hb hcl,
    compsInv_toggle_vertex h a b, ?_⟩
  rw [directed_toggle_vertex]
  intro hd
  obtain ⟨hsym, hnl⟩ := hundir hd
  by_cases hab : a = b
  · subst hab
    rw [toggle_self_undirected h hd a (hnl a)]
    exact ⟨fun x y => hsym x y, hnl⟩
  · constructor
    · intro x y
      rw [adjP_toggle_undirected h hd a b hab ha hb (hsym a b) x y,
        adjP_toggle_undirected h hd a b hab ha hb (hsym a b) y x]
      by_cases hc : (x = a ∧ y = b) ∨ (x = b ∧ y = a)
      · rw [if_pos hc, if_pos (by tauto)]
      · rw [if_neg hc, if_neg (by tauto)]
        exact hsym x y
    · intro x
      rw [adjP_toggle_undirected h hd a b hab ha hb (hsym a b) x x]
      rw [if_neg (by rintro (⟨rfl, rfl⟩ | ⟨rfl, rfl⟩) <;> exact hab rfl)]
      exact hnl x

/-- The body of `complement`'s pair loop. -/
def compStep (h : Graph) (p : NodeId × NodeId) : Graph :=
  let h1 := h.toggle_vertex p.1 p.2
  if h1.directed then h1.toggle_vertex p.2 p.1 else h1

theorem complement_eq_fold (g : Graph) :
    g.complement = (tailPairs (g.nodes.map (fun n => n.id))).foldl compStep g := rfl

/-- The body of `reorient`'s pair loop. -/
def reorStep (h : Graph) (p : NodeId × NodeId) : Graph :=
  if h.isAdjacent p.1 p.2 != h.isAdjacent p.2 p.1 then
    (h.toggle_vertex p.1 p.2).toggle_vertex p.2 p.1
  else h

theorem reorient_eq_fold (g : Graph) :
    g.reorient = (tailPairs (g.nodes.map (fun n => n.id))).foldl reorStep g := rfl

theorem tailPairs_mem {l : List NodeId} {p : NodeId × NodeId}
    (hp : p ∈ tailPairs l) : p.1 ∈ l ∧ p.2 ∈ l := by
  induction l with
  | nil => simp [tailPairs] at hp
  | cons a rest ih =>
    unfold tailPairs at hp
    rcases List.mem_append.mp hp with h1 | h1
    · obtain ⟨b, hb, rfl⟩ := List.mem_map.mp h1
      exact ⟨List.mem_cons_self _ _, hb⟩
    · obtain ⟨h2, h3⟩ := ih h1
      exact ⟨List.mem_cons_of_mem _ h2, List.mem_cons_of_mem _ h3⟩

theorem ids_compStep (h : Graph) (p : NodeId × NodeId) :
    (compStep h p).ids = h.ids := by
  unfold compStep
  by_cases hd : (h.toggle_vertex p.1 p.2).directed = true
  · rw [if_pos hd, ids_toggle_vertex, ids_toggle_vertex]
  · rw [if_neg hd, ids_toggle_vertex]

theorem directed_compStep (h : Graph) (p : NodeId × NodeId) :
    (compStep h p).directed = h.directed := by
  unfold compStep
  by_cases hd : (h.toggle_vertex p.1 p.2).directed = true
  · rw [if_pos hd, directed_toggle_vertex, directed_toggle_vertex]
  · rw [if_neg hd, directed_toggle_vertex]

theorem ids_reorStep (h : Graph) (p : NodeId × NodeId) :
    (reorStep h p).ids = h.ids := by
  unfold reorStep
  by_cases hd : (h.isAdjacent p.1 p.2 != h.isAdjacent p.2 p.1) = true
  · rw [if_pos hd, ids_toggle_vertex, ids_toggle_vertex]
  · rw [if_neg hd]

theorem directed_reorStep (h : Graph) (p : NodeId × NodeId) :
    (reorStep h p).directed = h.directed := by
  unfold reorStep
  by_cases hd : (h.isAdjacent p.1 p.2 != h.isAdjacent p.2 p.1) = true
  · rw [if_pos hd, directed_toggle_vertex, directed_toggle_vertex]
  · rw [if_neg hd]

theorem midInv_compStep (h : Graph) (p : NodeId × NodeId)
    (h1 : p.1 ∈ h.ids) (h2 : p.2 ∈ h.ids) (hm : MidInv h) : MidInv (compStep h p) := by
  unfold compStep
  have hm1 := midInv_toggle h p.1 p.2 h1 h2 hm
  by_cases hd : (h.toggle_vertex p.1 p.2).directed = true
  · rw [if_pos hd]
    exact midInv_toggle _ p.2 p.1
      (by rw [ids_toggle_vertex]; exact h2) (by rw [ids_toggle_vertex]; exact h1) hm1
  · rw [if_neg hd]
    exact hm1

theorem midInv_reorStep (h : Graph) (p : NodeId × NodeId)
    (h1 : p.1 ∈ h.ids) (h2 : p.2 ∈ h.ids) (hm : MidInv h) : MidInv (reorStep h p) := by
  unfold reorStep
  by_cases hd : (h.isAdjacent p.1 p.2 != h.isAdjacent p.2 p.1) = true
  · rw [if_pos hd]
    have hm1 := midInv_toggle h p.1 p.2 h1 h2 hm
    exact midInv_toggle _ p.2 p.1
      (by rw [ids_toggle_vertex]; exact h2) (by rw [ids_toggle_vertex]; exact h1) hm1
  · rw [if_neg hd]
    exact hm

theorem midInv_pairFold (step : Graph → NodeId × NodeId → Graph)
    (hids : ∀ h p, (step h p).ids = h.ids)
    (hstep : ∀ h p, p.1 ∈ h.ids → p.2 ∈ h.ids → MidInv h → MidInv (step h p))
    (ps : List (NodeId × NodeId)) (g : Graph)
    (hps : ∀ p ∈ ps, p.1 ∈ g.ids ∧ p.2 ∈ g.ids) (hg : MidInv g) :
    MidInv (ps.foldl step g) ∧ (ps.foldl step g).ids = g.ids := by
  induction ps generalizing g with
  | nil => exact ⟨hg, rfl⟩
  | cons p rest ih =>
    obtain ⟨hp1, hp2⟩ := hps p (List.mem_cons_self _ _)
    obtain ⟨ha, hb⟩ := ih (step g p)
      (fun q hq => by
        rw [hids g p]
        exact hps q (List.mem_cons_of_mem _ hq))
      (hstep g p hp1 hp2 hg)
    exact ⟨ha, hb.trans (hids g p)⟩

theorem midInv_complement (g : Graph) (hm : MidInv g) : MidInv g.complement := by
  rw [complement_eq_fold]
  exact (midInv_pairFold compStep ids_compStep midInv_compStep _ g
    (fun p hp => tailPairs_mem hp) hm).1

theorem midInv_reorient (g : Graph) (hm : MidInv g) : MidInv g.reorient := by
  rw [reorient_eq_fold]
  exact (midInv_pairFold reorStep ids_reorStep midInv_reorStep _ g
    (fun p hp => tailPairs_mem hp) hm).1

theorem ids_complement (g : Graph) : g.complement.ids = g.ids := by
  rw [complement_eq_fold]
  have : ∀ (ps : List (NodeId × NodeId)) (h : Graph),
      (ps.foldl compStep h).ids = h.ids := by
    intro ps
    induction ps with
    | nil => exact fun h => rfl
    | cons p rest ih => exact fun h => (ih (compStep h p)).trans (ids_compStep h p)
  exact this _ g

theorem ids_reorient (g : Graph) : g.reorient.ids = g.ids := by
  rw [reorient_eq_fold]
  have : ∀ (ps : List (NodeId × NodeId)) (h : Graph),
      (ps.foldl reorStep h).ids = h.ids := by
    intro ps
    induction ps with
    | nil => exact fun h => rfl
    | cons p rest ih => exact fun h => (ih (reorStep h p)).trans (ids_reorStep h p)
  exact this _ g

theorem directed_complement (g : Graph) : g.complement.directed = g.directed := by
  rw [complement_eq_fold]
  have : ∀ (ps : List (NodeId × NodeId)) (h : Graph),
      (ps.foldl compStep h).directed = h.directed := by
    intro ps
    induction ps with
    | nil => exact fun h => rfl
    | cons p rest ih => exact fun h => (ih (compStep h p)).trans (directed_compStep h p)
  exact this _ g

theorem directed_reorient (g : Graph) : g.reorient.directed = g.directed := by
  rw [reorient_eq_fold]
  have : ∀ (ps : List (NodeId × NodeId)) (h : Graph),
      (ps.foldl reorStep h).directed = h.directed := by
    intro ps
    induction ps with
    | nil => exact fun h => rfl
    | cons p rest ih => exact fun h => (ih (reorStep h p)).trans (directed_reorStep h p)
  exact this _ g

theorem symm_noloop_of_symGood {h : Graph} {gids : List NodeId}
    (hids : h.ids = gids) (hgood : ∀ u ∈ gids, SymGood h u) :
    (∀ a b, adjP h a b ↔ adjP h b a) ∧ (∀ a, ¬ adjP h a a) := by
  have key : ∀ a b, adjP h a b → adjP h b a := by
    intro a b hab
    have ha : a ∈ gids := hids ▸ adjP_mem_left hab
    exact (hgood a ha).2 b hab
  refine ⟨fun a b => ⟨key a b, key b a⟩, fun a hloop => ?_⟩
  have ha : a ∈ gids := hids ▸ adjP_mem_left hloop
  exact (hgood a ha).1 hloop

theorem set_directed_eq (g : Graph) (b : Bool) :
    g.set_directed b =
      { (if g.directed then g.ids.foldl Graph.symStep g else g) with
        directed := b } := rfl

theorem ids_symFold (L : List NodeId) (g : Graph) :
    (L.foldl Graph.symStep g).ids = g.ids := by
  induction L generalizing g with
  | nil => rfl
  | cons v rest ih => exact (ih (g.symStep v)).trans (ids_symStep g v)

theorem ids_set_directed (g : Graph) (b : Bool) :
    (g.set_directed b).ids = g.ids := by
  rw [set_directed_eq]
  by_cases hd : g.directed = true
  · rw [if_pos hd]
    exact ids_symFold _ g
  · rw [if_neg hd]
    rfl

theorem midInv_set_directed (g : Graph) (b : Bool) (hm : MidInv g) :
    MidInv (g.set_directed b) := by
  obtain ⟨hnd, hcl, hci, hundir⟩ := hm
  rw [set_directed_eq]
  by_cases hd : g.directed = true
  · rw [if_pos hd]
    obtain ⟨-, h2, h3, h4⟩ := symFold_good g.ids g hd hcl hnd []
      (by simp) (by simp)
    refine ⟨?_, h2, ?_, ?_⟩
    · show (g.ids.foldl Graph.symStep g).ids.Nodup
      rw [h3]
      exact hnd
    · exact compsInv_symFold _ g hci
    · intro hb
      exact symm_noloop_of_symGood h3 (fun u hu => h4 u (Or.inr hu))
  · rw [if_neg hd]
    refine ⟨hnd, hcl, hci, fun hb => hundir ?_⟩
    rw [Bool.eq_false_iff]
    exact hd

theorem midInv_add_node (g : Graph) (i : NodeId) (lab : Option String)
    (hfresh : i ∉ g.ids) (hm : MidInv g) : MidInv (g.add_node i lab) := by
  obtain ⟨hnd, hcl, hci, hundir⟩ := hm
  refine ⟨nodup_add_node hnd hfresh lab, closed_add_node i lab hcl,
    compsInv_add_node g i lab, ?_⟩
  rw [directed_add_node]
  intro hd
  obtain ⟨hsym, hnl⟩ := hundir hd
  exact ⟨fun a b => by rw [adjP_add_node, adjP_add_node]; exact hsym a b,
    fun a => by rw [adjP_add_node]; exact hnl a⟩

theorem midInv_remove_node (g : Graph) (i : NodeId) (hm : MidInv g) :
    MidInv (g.remove_node i) := by
  obtain ⟨hnd, hcl, hci, hundir⟩ := hm
  refine ⟨nodup_ids_remove_node hnd i, closed_remove_node hnd hcl i,
    compsInv_remove_node g i hci, ?_⟩
  rw [directed_remove_node]
  intro hd
  obtain ⟨hsym, hnl⟩ := hundir hd
  constructor
  · intro a b
    rw [adjP_remove_node hnd hcl i a b, adjP_remove_node hnd hcl i b a]
    constructor
    · rintro ⟨h1, h2, h3⟩
      exact ⟨(hsym a b).mp h1, h3, h2⟩
    · rintro ⟨h1, h2, h3⟩
      exact ⟨(hsym a b).mpr h1, h3, h2⟩
  · intro a
    rw [adjP_remove_node hnd hcl i a a]
    rintro ⟨h1, -, -⟩
    exact hnl a h1

theorem midInv_add_vertex (g : Graph) (a b : NodeId) (w : Int)
    (ha : a ∈ g.ids) (hb : b ∈ g.ids) (hm : MidInv g) :
    MidInv (g.add_vertex a b w) := by
  obtain ⟨hnd, hcl, hci, hundir⟩ := hm
  refine ⟨by rw [ids_add_vertex]; exact hnd, closed_add_vertex a b w ha hb hcl,
    compsInv_add_vertex g a b w, ?_⟩
  rw [directed_add_vertex]
  intro hd
  obtain ⟨hsym, hnl⟩ := hundir hd
  have key : ∀ x y,
      (adjP g x y ∨ (a ≠ b ∧ ¬ adjP g a b ∧
        ((x = a ∧ y = b ∧ a ∈ g.ids) ∨ (x = b ∧ y = a ∧ b ∈ g.ids)))) →
      (adjP g y x ∨ (a ≠ b ∧ ¬ adjP g a b ∧
        ((y = a ∧ x = b ∧ a ∈ g.ids) ∨ (y = b ∧ x = a ∧ b ∈ g.ids)))) := by
    rintro x y (h1 | ⟨hab, hnadj, ⟨rfl, rfl, -⟩ | ⟨rfl, rfl, -⟩⟩)
    · exact Or.inl ((hsym x y).mp h1)
    · exact Or.inr ⟨hab, hnadj, Or.inr ⟨rfl, rfl, hb⟩⟩
    · exact Or.inr ⟨hab, hnadj, Or.inl ⟨rfl, rfl, ha⟩⟩
  constructor
  · intro x y
    rw [adjP_add_vertex_undirected g hd a b w x y,
      adjP_add_vertex_undirected g hd a b w y x]
    exact ⟨key x y, key y x⟩
  · intro x
    rw [adjP_add_vertex_undirected g hd a b w x x]
    rintro (h1 | ⟨hab, -, ⟨rfl, rfl, -⟩ | ⟨rfl, rfl, -⟩⟩)
    · exact hnl x h1
    · exact hab rfl
    · exact hab rfl

theorem midInv_remove_vertex (g : Graph) (a b : NodeId) (hm : MidInv g) :
    MidInv (g.remove_vertex a b) := by
  obtain ⟨hnd, hcl, hci, hundir⟩ := hm
  refine ⟨by rw [ids_remove_vertex]; exact hnd, closed_remove_vertex a b hcl,
    compsInv_remove_vertex g a b, ?_⟩
  rw [directed_remove_vertex]
  intro hd
  obtain ⟨hsym, hnl⟩ := hundir hd
  constructor
  · intro x y
    rw [adjP_remove_vertex_undirected g hd a b x y,
      adjP_remove_vertex_undirected g hd a b y x]
    constructor
    · rintro ⟨h1, h2, h3⟩
      exact ⟨(hsym x y).mp h1, fun hc => h3 ⟨hc.2, hc.1⟩, fun hc => h2 ⟨hc.2, hc.1⟩⟩
    · rintro ⟨h1, h2, h3⟩
      exact ⟨(hsym x y).mpr h1, fun hc => h3 ⟨hc.2, hc.1⟩, fun hc => h2 ⟨hc.2, hc.1⟩⟩
  · intro x
    rw [adjP_remove_vertex_undirected g hd a b x x]
    rintro ⟨h1, -, -⟩
    exact hnl x h1

theorem midInv_set_weighted (g : Graph) (b : Bool) (hm : MidInv g) :
    MidInv (g.set_weighted b) := hm

theorem ids_set_weighted (g : Graph) (b : Bool) :
    (g.set_weighted b).ids = g.ids := rfl

theorem contains_mem {l : List NodeId} {a : NodeId} (h : l.contains a = true) :
    a ∈ l := by
  rw [List.contains_iff_exists_mem_beq] at h
  obtain ⟨x, hx, he⟩ := h
  rw [beq_iff_eq] at he
  exact he ▸ hx

/-- The complete state invariant: graph invariant plus freshness of the
allocation counter. -/
def StInv (s : Graph × Nat) : Prop :=
  MidInv s.1 ∧ ∀ i ∈ s.1.ids, i < s.2

theorem stInv_applyOp {s : Graph × Nat} {op : Op} (h : StInv s)
    (hv : validOp s.1 op = true) : StInv (applyOp s op) := by
  obtain ⟨hm, hc⟩ := h
  obtain ⟨g, c⟩ := s
  cases op with
  | addNode lab =>
    have hfresh : c ∉ g.ids := fun hmem => lt_irrefl c (hc c hmem)
    refine ⟨midInv_add_node g c lab hfresh hm, ?_⟩
    intro i hi
    have hi' : i ∈ (g.add_node c lab).ids := hi
    rw [ids_add_node] at hi'
    show i < c + 1
    rcases List.mem_append.mp hi' with h1 | h1
    · exact Nat.lt_succ_of_lt (hc i h1)
    · rw [List.mem_singleton] at h1
      subst h1
      exact Nat.lt_succ_self i
  | removeNode i =>
    refine ⟨midInv_remove_node g i hm, ?_⟩
    intro j hj
    have hj' : j ∈ (g.remove_node i).ids := hj
    rw [mem_ids_remove_node hm.1] at hj'
    exact hc j hj'.1
  | addVertex a b w =>
    simp only [validOp, Bool.and_eq_true] at hv
    refine ⟨midInv_add_vertex g a b w (contains_mem hv.1) (contains_mem hv.2) hm, ?_⟩
    intro i hi
    have hi' : i ∈ (g.add_vertex a b w).ids := hi
    rw [ids_add_vertex] at hi'
    exact hc i hi'
  | removeVertex a b =>
    refine ⟨midInv_remove_vertex g a b hm, ?_⟩
    intro i hi
    have hi' : i ∈ (g.remove_vertex a b).ids := hi
    rw [ids_remove_vertex] at hi'
    exact hc i hi'
  | toggleVertex a b =>
    simp only [validOp, Bool.and_eq_true] at hv
    refine ⟨midInv_toggle g a b (contains_mem hv.1) (contains_mem hv.2) hm, ?_⟩
    intro i hi
    have hi' : i ∈ (g.toggle_vertex a b).ids := hi
    rw [ids_toggle_vertex] at hi'
    exact hc i hi'
  | setDirected b =>
    refine ⟨midInv_set_directed g b hm, ?_⟩
    intro i hi
    have hi' : i ∈ (g.set_directed b).ids := hi
    rw [ids_set_directed] at hi'
    exact hc i hi'
  | setWeighted b =>
    exact ⟨midInv_set_weighted g b hm, hc⟩
  | complementOp =>
    refine ⟨midInv_complement g hm, ?_⟩
    intro i hi
    have hi' : i ∈ g.complement.ids := hi
    rw [ids_complement] at hi'
    exact hc i hi'
  | reorientOp =>
    refine ⟨midInv_reorient g hm, ?_⟩
    intro i hi
    have hi' : i ∈ g.reorient.ids := hi
    rw [ids_reorient] at hi'
    exact hc i hi'

theorem stInv_init : StInv initState := by
  refine ⟨⟨List.nodup_nil, ?_, rfl, ?_⟩, ?_⟩
  · intro n hn
    have hn' : n ∈ ([] : List Node) := hn
    simp at hn'
  · intro hd
    constructor
    · intro a b
      simp [adjP, Graph.isAdjacent, Graph.adjacentIds, Graph.findNode, initState]
    · intro a
      simp [adjP, Graph.isAdjacent, Graph.adjacentIds, Graph.findNode, initState]
  · intro i hi
    simp [initState, Graph.ids] at hi

theorem stInv_runAux (ops : List Op) (s : Graph × Nat) (hs : StInv s)
    (hv : validOps s ops = true) : StInv (ops.foldl applyOp s) := by
  induction ops generalizing s with
  | nil => exact hs
  | cons op rest ih =>
    rw [show validOps s (op :: rest) = (validOp s.1 op && validOps (applyOp s op) rest)
      from rfl, Bool.and_eq_true] at hv
    exact ih (applyOp s op) (stInv_applyOp hs hv.1) hv.2

theorem stInv_runOps (ops : List Op) (hv : validOps initState ops = true) :
    StInv (runOps ops) :=
  stInv_runAux ops initState stInv_init hv

/-! ### `weakly_connected`'s loop, characterized -/

theorem wcLoop_none (a b : NodeId) (comps : List (Finset NodeId)) :
    wcLoop a b comps = none ↔ ∀ s ∈ comps, a ∉ s ∧ b ∉ s := by
  induction comps with
  | nil => simp [wcLoop]
  | cons c rest ih =>
    unfold wcLoop
    by_cases h1 : a ∈ c ∧ b ∈ c
    · rw [if_pos h1]
      simp only [List.mem_cons]
      constructor
      · intro h
        simp at h
      · intro h
        exact absurd h1.1 (h c (Or.inl rfl)).1
    · rw [if_neg h1]
      by_cases h2 : a ∈ c ∨ b ∈ c
      · rw [if_pos h2]
        constructor
        · intro h
          simp at h
        · intro h
          rcases h2 with h2 | h2
          · exact absurd h2 (h c (List.mem_cons_self _ _)).1
          · exact absurd h2 (h c (List.mem_cons_self _ _)).2
      · rw [if_neg h2]
        rw [ih]
        push_neg at h2
        constructor
        · intro h s hs
          rcases List.mem_cons.mp hs with rfl | hs'
          · exact h2
          · exact h s hs'
        · intro h s hs
          exact h s (List.mem_cons_of_mem _ hs)

theorem wcLoop_some_true {comps : List (Finset NodeId)}
    (hdis : comps.Pairwise Disjoint) (a b : NodeId) :
    wcLoop a b comps = some true ↔ ∃ s ∈ comps, a ∈ s ∧ b ∈ s := by
  induction comps with
  | nil => simp [wcLoop]
  | cons c rest ih =>
    obtain ⟨hd, htl⟩ := List.pairwise_cons.mp hdis
    unfold wcLoop
    by_cases h1 : a ∈ c ∧ b ∈ c
    · rw [if_pos h1]
      simp only [true_iff]
      exact ⟨c, List.mem_cons_self _ _, h1⟩
    · rw [if_neg h1]
      by_cases h2 : a ∈ c ∨ b ∈ c
      · rw [if_pos h2]
        constructor
        · intro h
          simp at h
        · rintro ⟨s, hs, has, hbs⟩
          rcases List.mem_cons.mp hs with rfl | hs'
          · exact absurd ⟨has, hbs⟩ h1
          · rcases h2 with h2 | h2
            · exact absurd has (Finset.disjoint_left.mp (hd s hs') h2)
            · exact absurd hbs (Finset.disjoint_left.mp (hd s hs') h2)
      · rw [if_neg h2]
        rw [ih htl]
        push_neg at h2
        constructor
        · rintro ⟨s, hs, has, hbs⟩
          exact ⟨s, List.mem_cons_of_mem _ hs, has, hbs⟩
        · rintro ⟨s, hs, has, hbs⟩
          rcases List.mem_cons.mp hs with rfl | hs'
          · exact absurd has h2.1
          · exact ⟨s, hs', has, hbs⟩

theorem wcLoop_some_false {comps : List (Finset NodeId)}
    (hdis : comps.Pairwise Disjoint) (a b : NodeId) :
    wcLoop a b comps = some false ↔
      ∃ s ∈ comps, ((a ∈ s ∧ b ∉ s) ∨ (b ∈ s ∧ a ∉ s)) := by
  induction comps with
  | nil => simp [wcLoop]
  | cons c rest ih =>
    obtain ⟨hd, htl⟩ := List.pairwise_cons.mp hdis
    unfold wcLoop
    by_cases h1 : a ∈ c ∧ b ∈ c
    · rw [if_pos h1]
      constructor
      · intro h
        simp at h
      · rintro ⟨s, hs, hcase⟩
        rcases List.mem_cons.mp hs with rfl | hs'
        · rcases hcase with ⟨-, hb⟩ | ⟨-, ha⟩
          · exact absurd h1.2 hb
          · exact absurd h1.1 ha
        · rcases hcase with ⟨has, -⟩ | ⟨hbs, -⟩
          · exact absurd has (Finset.disjoint_left.mp (hd s hs') h1.1)
          · exact absurd hbs (Finset.disjoint_left.mp (hd s hs') h1.2)
    · rw [if_neg h1]
      by_cases h2 : a ∈ c ∨ b ∈ c
      · rw [if_pos h2]
        simp only [true_iff]
        rcases h2 with h2 | h2
        · exact ⟨c, List.mem_cons_self _ _, Or.inl ⟨h2, fun hb => h1 ⟨h2, hb⟩⟩⟩
        · exact ⟨c, List.mem_cons_self _ _, Or.inr ⟨h2, fun ha => h1 ⟨ha, h2⟩⟩⟩
      · rw [if_neg h2]
        rw [ih htl]
        push_neg at h2
        constructor
        · rintro ⟨s, hs, hcase⟩
          exact ⟨s, List.mem_cons_of_mem _ hs, hcase⟩
        · rintro ⟨s, hs, hcase⟩
          rcases List.mem_cons.mp hs with rfl | hs'
          · rcases hcase with ⟨has, -⟩ | ⟨hbs, -⟩
            · exact absurd has h2.1
            · exact absurd hbs h2.2
          · exact ⟨s, hs', hcase⟩

/-! ### Claim theorems: the graph model -/

/-- C1: after every valid mutation sequence, the component list is a valid
set partition of the current node set — pairwise disjoint, union exactly
the node set — and two nodes of the graph lie in the same set iff a path
between them exists ignoring edge direction. -/
theorem C1_components_partition (ops : List Op)
    (hv : validOps initState ops = true) :
    ((runOps ops).1.components.Pairwise (fun s t => Disjoint s t)) ∧
    (∀ x, (∃ s ∈ (runOps ops).1.components, x ∈ s) ↔ x ∈ (runOps ops).1.ids) ∧
    (∀ a b, a ∈ (runOps ops).1.ids →
      ((∃ s ∈ (runOps ops).1.components, a ∈ s ∧ b ∈ s) ↔
        weakConn (runOps ops).1 a b)) := by
  obtain ⟨⟨hnd, hcl, hci, -⟩, -⟩ := stInv_runOps ops hv
  rw [hci]
  exact ⟨computeComponents_pairwise (runOps ops).1.nodes,
    fun x => computeComponents_mem_iff (runOps ops).1 ⟨hnd, hcl⟩ x,
    fun a b ha => computeComponents_sameSet (runOps ops).1 ⟨hnd, hcl⟩ a b ha⟩

/-- A concrete mutation sequence used by the witnesses. -/
def exOpsA : List Op :=
  [Op.addNode none, Op.addNode none, Op.addNode none, Op.addVertex 0 1 1,
    Op.setDirected true, Op.toggleVertex 1 2]

theorem C1_components_partition_witness :
    validOps initState exOpsA = true ∧
    (((runOps exOpsA).1.components.Pairwise (fun s t => Disjoint s t)) ∧
    (∀ x, (∃ s ∈ (runOps exOpsA).1.components, x ∈ s) ↔ x ∈ (runOps exOpsA).1.ids) ∧
    (∀ a b, a ∈ (runOps exOpsA).1.ids →
      ((∃ s ∈ (runOps exOpsA).1.components, a ∈ s ∧ b ∈ s) ↔
        weakConn (runOps exOpsA).1 a b))) :=
  ⟨by decide, C1_components_partition exOpsA (by decide)⟩

/-- C8: whenever the graph is undirected, adjacency is symmetric after
every valid operation sequence. -/
theorem C8_undirected_symmetric (ops : List Op)
    (hv : validOps initState ops = true)
    (hund : (runOps ops).1.directed = false) :
    ∀ a b, (runOps ops).1.isAdjacent a b = (runOps ops).1.isAdjacent b a := by
  obtain ⟨⟨-, -, -, hundir⟩, -⟩ := stInv_runOps ops hv
  obtain ⟨hsym, -⟩ := hundir hund
  intro a b
  have h := hsym a b
  cases h1 : (runOps ops).1.isAdjacent a b with
  | true => exact ((h.mp h1).symm)
  | false =>
    cases h2 : (runOps ops).1.isAdjacent b a with
    | true =>
      have hadj : adjP (runOps ops).1 a b := h.mpr h2
      rw [show adjP (runOps ops).1 a b = ((runOps ops).1.isAdjacent a b = true) from rfl,
        h1] at hadj
      exact absurd hadj (by simp)
    | false => rfl

/-- A concrete sequence ending undirected (after a set_directed round trip). -/
def exOpsB : List Op :=
  [Op.addNode none, Op.addNode none, Op.setDirected true, Op.addVertex 0 1 1,
    Op.setDirected false, Op.addNode none, Op.toggleVertex 2 0]

theorem C8_undirected_symmetric_witness :
    (validOps initState exOpsB = true ∧ (runOps exOpsB).1.directed = false) ∧
    ∀ a b, (runOps exOpsB).1.isAdjacent a b = (runOps exOpsB).1.isAdjacent b a :=
  ⟨⟨by decide, by decide⟩, C8_undirected_symmetric exOpsB (by decide) (by decide)⟩

/-- C10: `weakly_connected` returns `some true` exactly when a component
holds both nodes, `some false` exactly when a component holds exactly one
of them, and `none` exactly when no component mentions either — in
particular for two identities that were never added to the graph. -/
theorem C10_weakly_connected_trichotomy (ops : List Op)
    (hv : validOps initState ops = true) :
    (∀ a b,
      ((runOps ops).1.weakly_connected a b = some true ↔
        ∃ s ∈ (runOps ops).1.components, a ∈ s ∧ b ∈ s) ∧
      ((runOps ops).1.weakly_connected a b = some false ↔
        ∃ s ∈ (runOps ops).1.components, ((a ∈ s ∧ b ∉ s) ∨ (b ∈ s ∧ a ∉ s))) ∧
      ((runOps ops).1.weakly_connected a b = none ↔
        ∀ s ∈ (runOps ops).1.components, a ∉ s ∧ b ∉ s)) ∧
    (∀ a b, a ∉ (runOps ops).1.ids → b ∉ (runOps ops).1.ids →
      (runOps ops).1.weakly_connected a b = none) := by
  obtain ⟨⟨hnd, hcl, hci, -⟩, -⟩ := stInv_runOps ops hv
  have hdis : (runOps ops).1.components.Pairwise Disjoint := by
    rw [hci]
    exact computeComponents_pairwise _
  constructor
  · intro a b
    exact ⟨wcLoop_some_true hdis a b, wcLoop_some_false hdis a b, wcLoop_none a b _⟩
  · intro a b ha hb
    rw [show (runOps ops).1.weakly_connected a b = wcLoop a b (runOps ops).1.components
      from rfl, wcLoop_none]
    intro s hs
    constructor
    · intro has
      exact ha ((computeComponents_mem_iff (runOps ops).1 ⟨hnd, hcl⟩ a).mp
        ⟨s, hci ▸ hs, has⟩)
    · intro hbs
      exact hb ((computeComponents_mem_iff (runOps ops).1 ⟨hnd, hcl⟩ b).mp
        ⟨s, hci ▸ hs, hbs⟩)

theorem C10_weakly_connected_trichotomy_witness :
    validOps initState exOpsA = true ∧
    ((∀ a b,
      ((runOps exOpsA).1.weakly_connected a b = some true ↔
        ∃ s ∈ (runOps exOpsA).1.components, a ∈ s ∧ b ∈ s) ∧
      ((runOps exOpsA).1.weakly_connected a b = some false ↔
        ∃ s ∈ (runOps exOpsA).1.components, ((a ∈ s ∧ b ∉ s) ∨ (b ∈ s ∧ a ∉ s))) ∧
      ((runOps exOpsA).1.weakly_connected a b = none ↔
        ∀ s ∈ (runOps exOpsA).1.components, a ∉ s ∧ b ∉ s)) ∧
    (∀ a b, a ∉ (runOps exOpsA).1.ids → b ∉ (runOps exOpsA).1.ids →
      (runOps exOpsA).1.weakly_connected a b = none)) :=
  ⟨by decide, C10_weakly_connected_trichotomy exOpsA (by decide)⟩

/-! ### Slot-wise effect of the `complement` and `reorient` pair steps -/

theorem adjP_mem_right {g : Graph} (hnd : g.ids.Nodup) (hcl : Closed g)
    {a b : NodeId} (h : adjP g a b) : b ∈ g.ids := by
  obtain ⟨n, hn, -, hout⟩ := (adjP_iff hnd).mp h
  obtain ⟨v, hv, rfl⟩ := List.mem_map.mp hout
  exact hcl n hn v hv

theorem compStep_self_adjP (h : Graph) (hm : MidInv h) (a : NodeId) (x y : NodeId) :
    adjP (compStep h (a, a)) x y ↔ adjP h x y := by
  obtain ⟨hnd, hcl, hci, hundir⟩ := hm
  by_cases hd : h.directed = true
  · have hd1 : (h.toggle_vertex a a).directed = true := by
      rw [directed_toggle_vertex]
      exact hd
    have hstep : compStep h (a, a) = (h.toggle_vertex a a).toggle_vertex a a := by
      unfold compStep
      rw [if_pos hd1]
    rw [hstep, adjP_toggle_directed _ hd1 a a x y]
    by_cases hxy : x = a ∧ y = a
    · rw [if_pos hxy, adjP_toggle_directed h hd a a a a, if_pos ⟨rfl, rfl⟩]
      rw [show (h.toggle_vertex a a).ids = h.ids from ids_toggle_vertex h a a]
      rw [hxy.1, hxy.2]
      by_cases hmem : a ∈ h.ids
      · simp only [hmem, and_true]
        tauto
      · constructor
        · rintro ⟨-, hma⟩
          exact absurd hma hmem
        · intro hadj
          exact absurd (adjP_mem_left hadj) hmem
    · rw [if_neg hxy, adjP_toggle_directed h hd a a x y, if_neg hxy]
  · have hd' : h.directed = false := by
      rw [Bool.eq_false_iff]
      exact hd
    obtain ⟨-, hnl⟩ := hundir hd'
    have hstep : compStep h (a, a) = (h.toggle_vertex a a) := by
      unfold compStep
      rw [if_neg (by rw [directed_toggle_vertex, hd']; simp)]
    rw [hstep, toggle_self_undirected h hd' a (hnl a)]
    exact adjP_recalc h x y

theorem compStep_pair_adjP (h : Graph) (hm : MidInv h) (a b : NodeId)
    (hab : a ≠ b) (ha : a ∈ h.ids) (hb : b ∈ h.ids) (x y : NodeId) :
    adjP (compStep h (a, b)) x y ↔
      (if x = a ∧ y = b then ¬ adjP h a b
       else if x = b ∧ y = a then ¬ adjP h b a
       else adjP h x y) := by
  obtain ⟨hnd, hcl, hci, hundir⟩ := hm
  by_cases hd : h.directed = true
  · have hd1 : (h.toggle_vertex a b).directed = true := by
      rw [directed_toggle_vertex]
      exact hd
    have hstep : compStep h (a, b) = (h.toggle_vertex a b).toggle_vertex b a := by
      unfold compStep
      rw [if_pos hd1]
    rw [hstep, adjP_toggle_directed _ hd1 b a x y]
    by_cases h2 : x = b ∧ y = a
    · rw [if_pos h2, adjP_toggle_directed h hd a b b a,
        if_neg (fun hc => hab hc.2)]
      rw [show (h.toggle_vertex a b).ids = h.ids from ids_toggle_vertex h a b]
      rw [if_neg (fun hc : x = a ∧ y = b => hab (hc.1.symm.trans h2.1)), if_pos h2]
      simp [hb]
    · rw [if_neg h2, adjP_toggle_directed h hd a b x y]
      by_cases h1 : x = a ∧ y = b
      · rw [if_pos h1, if_pos h1]
        simp [ha]
      · rw [if_neg h1, if_neg h1, if_neg h2]
  · have hd' : h.directed = false := by
      rw [Bool.eq_false_iff]
      exact hd
    obtain ⟨hsym, -⟩ := hundir hd'
    have hstep : compStep h (a, b) = h.toggle_vertex a b := by
      unfold compStep
      rw [if_neg (by rw [directed_toggle_vertex, hd']; simp)]
    rw [hstep, adjP_toggle_undirected h hd' a b hab ha hb (hsym a b) x y]
    by_cases h1 : x = a ∧ y = b
    · rw [if_pos (Or.inl h1), if_pos h1]
    · by_cases h2 : x = b ∧ y = a
      · rw [if_pos (Or.inr h2), if_neg h1, if_pos h2]
        rw [hsym a b]
      · rw [if_neg (by tauto), if_neg h1, if_neg h2]

theorem reorStep_self (h : Graph) (a : NodeId) : reorStep h (a, a) = h := by
  unfold reorStep
  rw [if_neg (by simp)]

theorem reorStep_pair_adjP (h : Graph) (hm : MidInv h) (a b : NodeId)
    (hab : a ≠ b) (ha : a ∈ h.ids) (hb : b ∈ h.ids) (x y : NodeId) :
    adjP (reorStep h (a, b)) x y ↔
      (if x = a ∧ y = b then adjP h b a
       else if x = b ∧ y = a then adjP h a b
       else adjP h x y) := by
  obtain ⟨hnd, hcl, hci, hundir⟩ := hm
  have bxor : ∀ p q : Bool, (p != q) = true → ((¬ q = true) ↔ p = true) := by decide
  by_cases hg : (h.isAdjacent a b != h.isAdjacent b a) = true
  · have hd : h.directed = true := by
      by_contra hd'
      rw [Bool.not_eq_true] at hd'
      obtain ⟨hsym, -⟩ := hundir hd'
      rw [bne_iff_ne] at hg
      apply hg
      by_cases hc : adjP h a b
      · rw [show h.isAdjacent a b = true from hc,
          show h.isAdjacent b a = true from (hsym a b).mp hc]
      · rw [Bool.eq_false_iff.mpr hc,
          Bool.eq_false_iff.mpr (fun hx => hc ((hsym a b).mpr hx))]
    have hd1 : (h.toggle_vertex a b).directed = true := by
      rw [directed_toggle_vertex]
      exact hd
    have hstep : reorStep h (a, b) = (h.toggle_vertex a b).toggle_vertex b a := by
      unfold reorStep
      rw [if_pos hg]
    rw [hstep, adjP_toggle_directed _ hd1 b a x y]
    by_cases h2 : x = b ∧ y = a
    · rw [if_pos h2, adjP_toggle_directed h hd a b b a,
        if_neg (fun hc => hab hc.2)]
      rw [show (h.toggle_vertex a b).ids = h.ids from ids_toggle_vertex h a b]
      rw [if_neg (fun hc : x = a ∧ y = b => hab (hc.1.symm.trans h2.1)), if_pos h2]
      simp only [hb, and_true]
      exact bxor _ _ hg
    · rw [if_neg h2, adjP_toggle_directed h hd a b x y]
      by_cases h1 : x = a ∧ y = b
      · rw [if_pos h1, if_pos h1]
        simp only [ha, and_true]
        have hg' : (h.isAdjacent b a != h.isAdjacent a b) = true := by
          rw [bne_iff_ne] at hg ⊢
          exact fun he => hg he.symm
        exact bxor _ _ hg'
      · rw [if_neg h1, if_neg h1, if_neg h2]
  · have hstep : reorStep h (a, b) = h := by
      unfold reorStep
      rw [if_neg hg]
    rw [Bool.not_eq_true, bne_eq_false_iff_eq] at hg
    have heq : adjP h a b ↔ adjP h b a := by
      unfold adjP
      rw [hg]
    rw [hstep]
    by_cases h1 : x = a ∧ y = b
    · rw [if_pos h1, h1.1, h1.2]
      exact heq
    · by_cases h2 : x = b ∧ y = a
      · rw [if_neg h1, if_pos h2, h2.1, h2.2]
        exact heq.symm
      · rw [if_neg h1, if_neg h2]

/-! ### The full pair folds of `complement` and `reorient` -/

/-- Two visited pairs touch the same unordered slot. -/
def sameU (p q : NodeId × NodeId) : Prop :=
  (p.1 = q.1 ∧ p.2 = q.2) ∨ (p.1 = q.2 ∧ p.2 = q.1)

/-- The visited pair `p` toggles the ordered adjacency slot `(x, y)`. -/
def pmatches (p : NodeId × NodeId) (x y : NodeId) : Prop :=
  x ≠ y ∧ ((p.1 = x ∧ p.2 = y) ∨ (p.1 = y ∧ p.2 = x))

theorem pmatches_symm {p : NodeId × NodeId} {x y : NodeId}
    (h : pmatches p x y) : pmatches p y x :=
  ⟨fun he => h.1 he.symm, h.2.symm⟩

theorem pmatches_sameU {p q : NodeId × NodeId} {x y : NodeId}
    (hp : pmatches p x y) (hq : pmatches q x y) : sameU p q := by
  obtain ⟨hxy, hp2⟩ := hp
  obtain ⟨-, hq2⟩ := hq
  rcases hp2 with ⟨h1, h2⟩ | ⟨h1, h2⟩ <;> rcases hq2 with ⟨h3, h4⟩ | ⟨h3, h4⟩
  · exact Or.inl ⟨h1.trans h3.symm, h2.trans h4.symm⟩
  · exact Or.inr ⟨h1.trans h4.symm, h2.trans h3.symm⟩
  · exact Or.inr ⟨h1.trans h4.symm, h2.trans h3.symm⟩
  · exact Or.inl ⟨h1.trans h3.symm, h2.trans h4.symm⟩

theorem tailPairs_pairwise {l : List NodeId} (h : l.Nodup) :
    (tailPairs l).Pairwise (fun p q => ¬ sameU p q) := by
  induction l with
  | nil => exact List.Pairwise.nil
  | cons a rest ih =>
    obtain ⟨ha, hrest⟩ := List.nodup_cons.mp h
    unfold tailPairs
    rw [List.pairwise_append]
    refine ⟨?_, ih hrest, ?_⟩
    · rw [List.pairwise_map]
      refine h.imp ?_
      intro b1 b2 hne hs
      rcases hs with ⟨-, h2⟩ | ⟨h1, h2⟩
      · exact hne h2
      · exact hne (h2.trans h1)
    · intro p hp q hq
      obtain ⟨b, -, rfl⟩ := List.mem_map.mp hp
      obtain ⟨hq1, hq2⟩ := tailPairs_mem hq
      rintro (⟨h1, -⟩ | ⟨h1, -⟩)
      · exact ha ((show a = q.1 from h1) ▸ hq1)
      · exact ha ((show a = q.2 from h1) ▸ hq2)

theorem tailPairs_covers {l : List NodeId} {x y : NodeId}
    (hx : x ∈ l) (hy : y ∈ l) (hxy : x ≠ y) :
    ∃ p ∈ tailPairs l, pmatches p x y := by
  induction l with
  | nil => simp at hx
  | cons a rest ih =>
    by_cases hxa : x = a
    · refine ⟨(a, y), ?_, hxy, Or.inl ⟨hxa.symm, rfl⟩⟩
      unfold tailPairs
      exact List.mem_append_left _ (List.mem_map.mpr ⟨y, hy, rfl⟩)
    · by_cases hya : y = a
      · refine ⟨(a, x), ?_, hxy, Or.inr ⟨hya.symm, rfl⟩⟩
        unfold tailPairs
        exact List.mem_append_left _ (List.mem_map.mpr ⟨x, hx, rfl⟩)
      · have hx' : x ∈ rest := (List.mem_cons.mp hx).resolve_left hxa
        have hy' : y ∈ rest := (List.mem_cons.mp hy).resolve_left hya
        obtain ⟨p, hp, hpm⟩ := ih hx' hy'
        refine ⟨p, ?_, hpm⟩
        unfold tailPairs
        exact List.mem_append_right _ hp

theorem compFold_adjP (ps : List (NodeId × NodeId)) (h : Graph)
    (hm : MidInv h)
    (hmem : ∀ p ∈ ps, p.1 ∈ h.ids ∧ p.2 ∈ h.ids)
    (hpw : ps.Pairwise (fun p q => ¬ sameU p q)) (x y : NodeId) :
    ((∃ p ∈ ps, pmatches p x y) →
      (adjP (ps.foldl compStep h) x y ↔ ¬ adjP h x y)) ∧
    ((¬ ∃ p ∈ ps, pmatches p x y) →
      (adjP (ps.foldl compStep h) x y ↔ adjP h x y)) := by
  induction ps generalizing h with
  | nil =>
    exact ⟨fun hc => absurd hc (by simp), fun hnc => Iff.rfl⟩
  | cons p rest ih =>
    obtain ⟨a, b⟩ := p
    obtain ⟨hp1, hp2⟩ := hmem (a, b) (List.mem_cons_self _ _)
    have hm' : MidInv (compStep h (a, b)) := midInv_compStep h (a, b) hp1 hp2 hm
    have hmem' : ∀ q ∈ rest, q.1 ∈ (compStep h (a, b)).ids ∧ q.2 ∈ (compStep h (a, b)).ids := by
      intro q hq
      rw [ids_compStep]
      exact hmem q (List.mem_cons_of_mem _ hq)
    have hpv := (List.pairwise_cons.mp hpw).1
    have ihx := ih (compStep h (a, b)) hm' hmem' (List.pairwise_cons.mp hpw).2
    by_cases hpm : pmatches (a, b) x y
    · have hrest : ¬ ∃ q ∈ rest, pmatches q x y := by
        rintro ⟨q, hq, hqm⟩
        exact hpv q hq (pmatches_sameU hpm hqm)
      have hab : a ≠ b := by
        obtain ⟨hxy, hor⟩ := hpm
        rcases hor with ⟨h1, h2⟩ | ⟨h1, h2⟩
        · exact fun he => hxy (h1.symm.trans (he.trans h2))
        · exact fun he => hxy (h1.symm.trans (he.trans h2)).symm
      have heff : adjP (compStep h (a, b)) x y ↔ ¬ adjP h x y := by
        rw [compStep_pair_adjP h hm a b hab hp1 hp2 x y]
        rcases hpm.2 with ⟨h1, h2⟩ | ⟨h1, h2⟩
        · have e1 : a = x := h1
          have e2 : b = y := h2
          rw [if_pos ⟨e1.symm, e2.symm⟩, e1, e2]
        · have e1 : a = y := h1
          have e2 : b = x := h2
          rw [if_neg (fun hc : x = a ∧ y = b => hpm.1 (hc.1.trans e1)),
            if_pos ⟨e2.symm, e1.symm⟩, e1, e2]
      refine ⟨fun hc => ?_, fun hnc => absurd ⟨(a, b), List.mem_cons_self _ _, hpm⟩ hnc⟩
      rw [List.foldl_cons]
      exact (ihx.2 hrest).trans heff
    · have heff : ∀ u v, ¬ pmatches (a, b) u v →
          (adjP (compStep h (a, b)) u v ↔ adjP h u v) := by
        intro u v hpm'
        by_cases hab : a = b
        · subst hab
          exact compStep_self_adjP h hm a u v
        · rw [compStep_pair_adjP h hm a b hab hp1 hp2 u v]
          rw [if_neg (fun hc : u = a ∧ v = b =>
              hpm' ⟨fun he => hab (hc.1.symm.trans (he.trans hc.2)),
                Or.inl ⟨hc.1.symm, hc.2.symm⟩⟩),
            if_neg (fun hc : u = b ∧ v = a =>
              hpm' ⟨fun he => hab (hc.2.symm.trans (he.symm.trans hc.1)),
                Or.inr ⟨hc.2.symm, hc.1.symm⟩⟩)]
      constructor
      · rintro ⟨q, hq, hqm⟩
        rcases List.mem_cons.mp hq with rfl | hq'
        · exact absurd hqm hpm
        · rw [List.foldl_cons]
          exact (ihx.1 ⟨q, hq', hqm⟩).trans (not_congr (heff x y hpm))
      · intro hnc
        have hrest : ¬ ∃ q ∈ rest, pmatches q x y := by
          rintro ⟨q, hq, hqm⟩
          exact hnc ⟨q, List.mem_cons_of_mem _ hq, hqm⟩
        rw [List.foldl_cons]
        exact (ihx.2 hrest).trans (heff x y hpm)

theorem reorFold_adjP (ps : List (NodeId × NodeId)) (h : Graph)
    (hm : MidInv h)
    (hmem : ∀ p ∈ ps, p.1 ∈ h.ids ∧ p.2 ∈ h.ids)
    (hpw : ps.Pairwise (fun p q => ¬ sameU p q)) (x y : NodeId) :
    ((∃ p ∈ ps, pmatches p x y) →
      (adjP (ps.foldl reorStep h) x y ↔ adjP h y x)) ∧
    ((¬ ∃ p ∈ ps, pmatches p x y) →
      (adjP (ps.foldl reorStep h) x y ↔ adjP h x y)) := by
  induction ps generalizing h with
  | nil =>
    exact ⟨fun hc => absurd hc (by simp), fun hnc => Iff.rfl⟩
  | cons p rest ih =>
    obtain ⟨a, b⟩ := p
    obtain ⟨hp1, hp2⟩ := hmem (a, b) (List.mem_cons_self _ _)
    have hm' : MidInv (reorStep h (a, b)) := midInv_reorStep h (a, b) hp1 hp2 hm
    have hmem' : ∀ q ∈ rest, q.1 ∈ (reorStep h (a, b)).ids ∧ q.2 ∈ (reorStep h (a, b)).ids := by
      intro q hq
      rw [ids_reorStep]
      exact hmem q (List.mem_cons_of_mem _ hq)
    have hpv := (List.pairwise_cons.mp hpw).1
    have ihx := ih (reorStep h (a, b)) hm' hmem' (List.pairwise_cons.mp hpw).2
    by_cases hpm : pmatches (a, b) x y
    · have hrest : ¬ ∃ q ∈ rest, pmatches q x y := by
        rintro ⟨q, hq, hqm⟩
        exact hpv q hq (pmatches_sameU hpm hqm)
      have hab : a ≠ b := by
        obtain ⟨hxy, hor⟩ := hpm
        rcases hor with ⟨h1, h2⟩ | ⟨h1, h2⟩
        · exact fun he => hxy (h1.symm.trans (he.trans h2))
        · exact fun he => hxy (h1.symm.trans (he.trans h2)).symm
      have heff : adjP (reorStep h (a, b)) x y ↔ adjP h y x := by
        rw [reorStep_pair_adjP h hm a b hab hp1 hp2 x y]
        rcases hpm.2 with ⟨h1, h2⟩ | ⟨h1, h2⟩
        · have e1 : a = x := h1
          have e2 : b = y := h2
          rw [if_pos ⟨e1.symm, e2.symm⟩, e1, e2]
        · have e1 : a = y := h1
          have e2 : b = x := h2
          rw [if_neg (fun hc : x = a ∧ y = b => hpm.1 (hc.1.trans e1)),
            if_pos ⟨e2.symm, e1.symm⟩, e1, e2]
      refine ⟨fun hc => ?_, fun hnc => absurd ⟨(a, b), List.mem_cons_self _ _, hpm⟩ hnc⟩
      rw [List.foldl_cons]
      exact (ihx.2 hrest).trans heff
    · have heff : ∀ u v, ¬ pmatches (a, b) u v →
          (adjP (reorStep h (a, b)) u v ↔ adjP h u v) := by
        intro u v hpm'
        by_cases hab : a = b
        · subst hab
          rw [reorStep_self]
        · rw [reorStep_pair_adjP h hm a b hab hp1 hp2 u v]
          rw [if_neg (fun hc : u = a ∧ v = b =>
              hpm' ⟨fun he => hab (hc.1.symm.trans (he.trans hc.2)),
                Or.inl ⟨hc.1.symm, hc.2.symm⟩⟩),
            if_neg (fun hc : u = b ∧ v = a =>
              hpm' ⟨fun he => hab (hc.2.symm.trans (he.symm.trans hc.1)),
                Or.inr ⟨hc.2.symm, hc.1.symm⟩⟩)]
      constructor
      · rintro ⟨q, hq, hqm⟩
        rcases List.mem_cons.mp hq with rfl | hq'
        · exact absurd hqm hpm
        · rw [List.foldl_cons]
          exact (ihx.1 ⟨q, hq', hqm⟩).trans
            (heff y x (fun hc => hpm (pmatches_symm hc)))
      · intro hnc
        have hrest : ¬ ∃ q ∈ rest, pmatches q x y := by
          rintro ⟨q, hq, hqm⟩
          exact hnc ⟨q, List.mem_cons_of_mem _ hq, hqm⟩
        rw [List.foldl_cons]
        exact (ihx.2 hrest).trans (heff x y hpm)

theorem adjP_complement (g : Graph) (hm : MidInv g) (x y : NodeId) :
    (x ≠ y ∧ x ∈ g.ids ∧ y ∈ g.ids → (adjP g.complement x y ↔ ¬ adjP g x y)) ∧
    (¬ (x ≠ y ∧ x ∈ g.ids ∧ y ∈ g.ids) → (adjP g.complement x y ↔ adjP g x y)) := by
  rw [complement_eq_fold]
  have hfold := compFold_adjP (tailPairs g.ids) g hm
    (fun p hp => tailPairs_mem hp) (tailPairs_pairwise hm.1) x y
  constructor
  · rintro ⟨hxy, hx, hy⟩
    exact hfold.1 (tailPairs_covers hx hy hxy)
  · intro hn
    refine hfold.2 ?_
    rintro ⟨p, hp, hpm⟩
    obtain ⟨h1, h2⟩ := tailPairs_mem hp
    apply hn
    rcases hpm.2 with ⟨e1, e2⟩ | ⟨e1, e2⟩
    · exact ⟨hpm.1, e1 ▸ h1, e2 ▸ h2⟩
    · exact ⟨hpm.1, e2 ▸ h2, e1 ▸ h1⟩

theorem adjP_reorient (g : Graph) (hm : MidInv g) (x y : NodeId) :
    (x ≠ y ∧ x ∈ g.ids ∧ y ∈ g.ids → (adjP g.reorient x y ↔ adjP g y x)) ∧
    (¬ (x ≠ y ∧ x ∈ g.ids ∧ y ∈ g.ids) → (adjP g.reorient x y ↔ adjP g x y)) := by
  rw [reorient_eq_fold]
  have hfold := reorFold_adjP (tailPairs g.ids) g hm
    (fun p hp => tailPairs_mem hp) (tailPairs_pairwise hm.1) x y
  constructor
  · rintro ⟨hxy, hx, hy⟩
    exact hfold.1 (tailPairs_covers hx hy hxy)
  · intro hn
    refine hfold.2 ?_
    rintro ⟨p, hp, hpm⟩
    obtain ⟨h1, h2⟩ := tailPairs_mem hp
    apply hn
    rcases hpm.2 with ⟨e1, e2⟩ | ⟨e1, e2⟩
    · exact ⟨hpm.1, e1 ▸ h1, e2 ▸ h2⟩
    · exact ⟨hpm.1, e2 ▸ h2, e1 ▸ h1⟩

theorem adjP_reorient_swap (g : Graph) (hm : MidInv g) (x y : NodeId) :
    adjP g.reorient x y ↔ adjP g y x := by
  have hc := adjP_reorient g hm x y
  by_cases hcov : x ≠ y ∧ x ∈ g.ids ∧ y ∈ g.ids
  · exact hc.1 hcov
  · rw [hc.2 hcov]
    by_cases hxy : x = y
    · rw [hxy]
    · have hmiss : x ∉ g.ids ∨ y ∉ g.ids := by tauto
      constructor
      · intro ha
        rcases hmiss with hmx | hmy
        · exact absurd (adjP_mem_left ha) hmx
        · exact absurd (adjP_mem_right hm.1 hm.2.1 ha) hmy
      · intro ha
        rcases hmiss with hmx | hmy
        · exact absurd (adjP_mem_right hm.1 hm.2.1 ha) hmx
        · exact absurd (adjP_mem_left ha) hmy

theorem adjP_complement_complement (g : Graph) (hm : MidInv g) (x y : NodeId) :
    adjP g.complement.complement x y ↔ adjP g x y := by
  have hm2 := midInv_complement g hm
  have h1 := adjP_complement g hm x y
  have h2 := adjP_complement g.complement hm2 x y
  by_cases hcov : x ≠ y ∧ x ∈ g.ids ∧ y ∈ g.ids
  · have hcov2 : x ≠ y ∧ x ∈ g.complement.ids ∧ y ∈ g.complement.ids := by
      rw [ids_complement]
      exact hcov
    rw [h2.1 hcov2, h1.1 hcov, not_not]
  · have hcov2 : ¬ (x ≠ y ∧ x ∈ g.complement.ids ∧ y ∈ g.complement.ids) := by
      rw [ids_complement]
      exact hcov
    rw [h2.2 hcov2, h1.2 hcov]

theorem adjP_reorient_reorient (g : Graph) (hm : MidInv g) (x y : NodeId) :
    adjP g.reorient.reorient x y ↔ adjP g x y := by
  rw [adjP_reorient_swap g.reorient (midInv_reorient g hm) x y,
    adjP_reorient_swap g hm y x]

theorem bool_eq_of_iff {a b : Bool} (h : a = true ↔ b = true) : a = b := by
  cases a <;> cases b <;> simp_all

/-- **C3** (amended): over every reachable graph, `complement` twice and
`reorient` twice restore the *edge set* exactly — the adjacency relation,
the node list and both flags are unchanged.  The weights part of the
original claim is false: toggling an edge re-adds it with weight 1, so the
round trips reset every weight they touch (see
`C3_involution_weights_counterexample`). -/
theorem C3_involutions_adjacency (ops : List Op)
    (hv : validOps initState ops = true) :
    (∀ x y, (runOps ops).1.complement.complement.isAdjacent x y
        = (runOps ops).1.isAdjacent x y) ∧
    (∀ x y, (runOps ops).1.reorient.reorient.isAdjacent x y
        = (runOps ops).1.isAdjacent x y) ∧
    (runOps ops).1.complement.complement.ids = (runOps ops).1.ids ∧
    (runOps ops).1.reorient.reorient.ids = (runOps ops).1.ids ∧
    (runOps ops).1.complement.complement.directed = (runOps ops).1.directed ∧
    (runOps ops).1.reorient.reorient.directed = (runOps ops).1.directed := by
  have hm : MidInv (runOps ops).1 := (stInv_runOps ops hv).1
  refine ⟨fun x y => bool_eq_of_iff (adjP_complement_complement (runOps ops).1 hm x y),
    fun x y => bool_eq_of_iff (adjP_reorient_reorient (runOps ops).1 hm x y),
    (ids_complement _).trans (ids_complement _),
    (ids_reorient _).trans (ids_reorient _),
    (directed_complement _).trans (directed_complement _),
    (directed_reorient _).trans (directed_reorient _)⟩

/-- A directed weighted graph with the single edge `0 → 1` of weight 5. -/
def exOpsC : List Op :=
  [Op.addNode none, Op.addNode none, Op.setDirected true, Op.setWeighted true,
    Op.addVertex 0 1 5]

theorem C3_involutions_adjacency_witness :
    validOps initState exOpsC = true ∧
    ((∀ x y, (runOps exOpsC).1.complement.complement.isAdjacent x y
        = (runOps exOpsC).1.isAdjacent x y) ∧
    (∀ x y, (runOps exOpsC).1.reorient.reorient.isAdjacent x y
        = (runOps exOpsC).1.isAdjacent x y) ∧
    (runOps exOpsC).1.complement.complement.ids = (runOps exOpsC).1.ids ∧
    (runOps exOpsC).1.reorient.reorient.ids = (runOps exOpsC).1.ids ∧
    (runOps exOpsC).1.complement.complement.directed = (runOps exOpsC).1.directed ∧
    (runOps exOpsC).1.reorient.reorient.directed = (runOps exOpsC).1.directed) :=
  ⟨by decide, C3_involutions_adjacency exOpsC (by decide)⟩

/-- Counterexample to **C3** as stated: on the reachable directed weighted
graph with one edge `0 → 1` of weight 5, both double applications keep the
edge but reset its weight to 1, because `toggle_vertex` re-adds a toggled
edge through `add_vertex` with the default weight 1. -/
theorem C3_involution_weights_counterexample :
    (runOps exOpsC).1.get_weight 0 1 = some 5 ∧
    (runOps exOpsC).1.reorient.reorient.get_weight 0 1 = some 1 ∧
    (runOps exOpsC).1.complement.complement.get_weight 0 1 = some 1 := by
  decide

/-! ### The text format: `from_string` and `to_string` -/

/-- Split a character list at every occurrence of `c` (keeping empty
pieces, like Python's `str.split` with an explicit separator). -/
def splitOnChar (c : Char) (s : List Char) : List (List Char) :=
  s.foldr
    (fun ch acc =>
      if ch == c then [] :: acc
      else
        match acc with
        | [] => [[ch]]
        | w :: ws => (ch :: w) :: ws)
    [[]]

/-- Python `str.splitlines` for newline-separated text: the `"\n"`-separated
pieces, without the final empty piece when the text ends in `"\n"`. -/
def pySplitlines (s : String) : List String :=
  let parts := (splitOnChar (Char.ofNat 10) s.data).map String.mk
  if parts.getLast? = some "" then parts.dropLast else parts

def isPyWs (c : Char) : Bool :=
  c == ' ' || c == Char.ofNat 9 || c == Char.ofNat 10 || c == Char.ofNat 13

/-- Python `str.strip`. -/
def pyStrip (l : List Char) : List Char :=
  ((l.dropWhile isPyWs).reverse.dropWhile isPyWs).reverse

/-- Python `line.strip().split()`: the whitespace-separated words of the
line. -/
def pySplit (line : String) : List String :=
  ((splitOnChar ' ' (pyStrip line.data)).map String.mk).filter (fun t => t != "")

def digitVal? (c : Char) : Option Nat :=
  if '0' ≤ c && c ≤ '9' then some (c.toNat - '0'.toNat) else none

def parseNatAux : List Char → Nat → Option Nat
  | [], acc => some acc
  | c :: rest, acc =>
    match digitVal? c with
    | some d => parseNatAux rest (acc * 10 + d)
    | none => none

/-- `literal_eval` restricted to the integer literals the format uses
(weights are embedded as `Int`). -/
def pyParseInt (s : String) : Option Int :=
  match s.data with
  | [] => none
  | '-' :: rest =>
    match rest with
    | [] => none
    | _ => (parseNatAux rest 0).map (fun n => -(n : Int))
  | l => (parseNatAux l 0).map (fun n => (n : Int))

/-- The parser's running state: the graph so far, the `node_dictionary`
from labels to node identities, and the allocation counter. -/
structure PSt where
  graph : Graph
  dict : List (String × NodeId)
  counter : Nat
deriving DecidableEq

/-- `node_dictionary[name]`, creating the node on first sight. -/
def PSt.getOrAdd (st : PSt) (name : String) : PSt × NodeId :=
  match st.dict.find? (fun p => p.1 == name) with
  | some p => (st, p.2)
  | none =>
    (⟨st.graph.add_node st.counter (some name),
      st.dict ++ [(name, st.counter)], st.counter + 1⟩, st.counter)

/-- One parsed line (the loop body of `from_string`): `none` models a raised
exception.  The directed/weighted flags are read back from the graph, which
the first line fixed. -/
def parseLine (st : PSt) (line : String) : Option PSt :=
  let parts := pySplit line
  let d : Nat := if st.graph.directed then 1 else 0
  match parts.get? 0, parts.get? (1 + d) with
  | some name1, some name2 =>
    match (if st.graph.weighted then (parts.get? (2 + d)).bind pyParseInt else some 0) with
    | some w =>
      let p1 := st.getOrAdd name1
      let p2 := p1.1.getOrAdd name2
      let ab := if parts.get? 1 == some "<-" then (p2.2, p1.2) else (p1.2, p2.2)
      some { p2.1 with graph := p2.1.graph.add_vertex ab.1 ab.2 w }
    | none => none
  | _, _ => none

/-- `Graph.from_string` (graph.py lines 276-318).  `none` models both a
raised exception (an empty line — the line filter evaluates `x[0]` when
`len(x) != 0` is false — a missing field, or an unparsable weight) and the
`None` returned when no line was processed.  The first line both fixes the
directed/weighted flags and contributes its edge, exactly as in the code;
unweighted vertices are added with weight 0. -/
def from_string (s : String) : Option Graph :=
  let ls := pySplitlines s
  if ls.any (fun x => x.length == 0) then none
  else
    match ls.get? 0 with
    | none => none
    | some l0 =>
      let parts := pySplit l0
      match parts.get? 1 with
      | none => none
      | some p1 =>
        let directed := p1 == "->" || p1 == "<-"
        let weighted := parts.length == 3 + (if directed then 1 else 0)
        (ls.foldl (fun acc line => acc.bind (fun st => parseLine st line))
          (some ⟨⟨directed, weighted, [], [], []⟩, [], 0⟩)).map (fun st => st.graph)

/-- The label `to_string` prints for a node: its label, or the `added`
placeholder `str(counter := counter + 1)` for an unlabelled node. -/
def labelFor (st : Nat × List (NodeId × String)) (n : Node) :
    (Nat × List (NodeId × String)) × String :=
  match n.label with
  | some l => (st, l)
  | none =>
    match st.2.find? (fun p => p.1 == n.id) with
    | some p => (st, p.2)
    | none => ((st.1 + 1, st.2 ++ [(n.id, toString (st.1 + 1))]), toString (st.1 + 1))

/-- The weight text `str(self.get_weight(n1, n2))` (Python prints `None`
when no such vertex exists). -/
def weightStr (g : Graph) (a b : NodeId) : String :=
  match g.get_weight a b with
  | some w => toString w
  | none => "None"

/-- The inner loop of `to_string` for the row of `n1`: the pairs `(n1, n2)`
for every `n2` after `n1` in the node list.  Object identities compared by
`id(n1) > id(n2)` are the allocation-order handles. -/
def toStringRow (g : Graph) (n1 : Node) :
    List Node → String → Nat → List (NodeId × String) → String
  | [], acc, _, _ => acc
  | n2 :: rest, acc, counter, added =>
    if !g.directed && n1.id > n2.id then toStringRow g n1 rest acc counter added
    else
      let s1 := labelFor (counter, added) n1
      let s2 := labelFor s1.1 n2
      let acc1 :=
        if n1.outIds.contains n2.id then
          acc ++ s1.2 ++ (if g.directed then " -> " else " ") ++ s2.2 ++
            (if g.weighted then " " ++ weightStr g n1.id n2.id else "") ++ "\n"
        else acc
      let acc2 :=
        if n2.outIds.contains n1.id && g.directed then
          acc1 ++ s1.2 ++ (if g.directed then " <- " else " ") ++ s2.2 ++
            (if g.weighted then " " ++ weightStr g n2.id n1.id else "") ++ "\n"
        else acc1
      toStringRow g n1 rest acc2 s2.1.1 s2.1.2

/-- `Graph.to_string` (graph.py lines 320-375).  The `return string` at the
end of the loop body sits *inside* the outer `for` loop, so the function
returns after the very first node's row; with no nodes the loop never runs
and the function falls through, returning Python's `None`. -/
def to_string (g : Graph) : Option String :=
  match g.nodes with
  | [] => none
  | n1 :: rest => some (toStringRow g n1 rest "" 0 [])

/-- **C2** fails in the code: the mis-indented `return string` inside
`to_string`'s outer loop makes serialization emit only the first node's
row.  Parsing `"A B\nB C"` yields a three-node graph whose serialization is
`"A B\n"`; re-parsing that gives a two-node graph — the round trip loses
node `C` and the edge `B — C`. -/
theorem C2_roundtrip_loses_edges :
    (from_string "A B\nB C").map (fun g => g.nodes.length) = some 3 ∧
    (from_string "A B\nB C").bind to_string = some "A B\n" ∧
    (((from_string "A B\nB C").bind to_string).bind from_string).map
      (fun g => g.nodes.length) = some 2 := by
  decide

/-- A reachable directed graph with the single edge `0 → 1`. -/
def exOpsD : List Op :=
  [Op.addNode none, Op.addNode none, Op.setDirected true, Op.addVertex 0 1 1]

/-- **C7** fails in the code: `set_directed` tests the *current* flag
rather than its argument, so calling `set_directed(true)` on an
already-directed graph runs the symmetrization pass and adds the reverse of
every edge.  On the directed graph with the single edge `0 → 1`, the call
adds `1 → 0`. -/
theorem C7_set_directed_true_adds_edges :
    (runOps exOpsD).1.directed = true ∧
    (runOps exOpsD).1.isAdjacent 1 0 = false ∧
    ((runOps exOpsD).1.set_directed true).isAdjacent 1 0 = true := by
  decide

/-! ### `recalculate_distance_to_root`: the rooted BFS -/

/-- `if distance not in dfr: dfr[distance] = []` followed by
`dfr[distance].append(adjacent)`, on the insertion-ordered dict. -/
def dfrAppend : List (Nat × List NodeId) → Nat → NodeId → List (Nat × List NodeId)
  | [], d, i => [(d, [i])]
  | (k, l) :: rest, d, i =>
    if k == d then (k, l ++ [i]) :: rest else (k, l) :: dfrAppend rest d i

/-- The `while len(queue) != 0` loop of `recalculate_distance_to_root`,
given enough fuel: pop the front, append every non-closed out-neighbour to
the queue and to the bucket of the popped entry's distance, then mark the
popped node closed.  The remaining queue is returned so that exhausted fuel
is observable: it is `[]` exactly when the loop ran to completion. -/
def bfsLoop (g : Graph) :
    Nat → List (NodeId × Nat) → Finset NodeId → List (Nat × List NodeId) →
    List (NodeId × Nat) × List (Nat × List NodeId)
  | 0, queue, _, dfr => (queue, dfr)
  | _ + 1, [], _, dfr => ([], dfr)
  | fuel + 1, (current, distance) :: rest, closed, dfr =>
    let st := (g.adjacentIds current).foldl
      (fun acc a =>
        if a ∈ closed then acc
        else (acc.1 ++ [(a, distance + 1)], dfrAppend acc.2 distance a))
      (rest, dfr)
    bfsLoop g fuel st.1 (insert current closed) st.2

/-- `DrawableGraph.recalculate_distance_to_root` (graph.py lines 671-703):
clear the map; with no root stop, otherwise seed bucket 0 with the root and
the queue with `(root, 1)` and run the BFS loop. -/
def recalculate_distance_to_root (g : Graph) (root : Option NodeId) (fuel : Nat) :
    List (NodeId × Nat) × List (Nat × List NodeId) :=
  match root with
  | none => ([], [])
  | some r => bfsLoop g fuel [(r, 1)] ∅ [(0, [r])]

/-- A reachable directed diamond: `0 → 1`, `0 → 2`, `1 → 3`, `2 → 3`. -/
def exOpsE : List Op :=
  [Op.addNode none, Op.addNode none, Op.addNode none, Op.addNode none,
    Op.setDirected true, Op.addVertex 0 1 1, Op.addVertex 0 2 1,
    Op.addVertex 1 3 1, Op.addVertex 2 3 1]

/-- **C9** fails in the code: the BFS marks a node closed only when it is
*dequeued*, so a node reachable along two equidistant paths is queued — and
appended to its depth bucket — once per path.  On the diamond rooted at 0,
node 3 appears twice in bucket 2, violating "every reachable node appears
in exactly one depth bucket, exactly once".  The empty first component
shows the loop itself terminated within the given fuel. -/
theorem C9_bfs_duplicates_nodes :
    recalculate_distance_to_root (runOps exOpsE).1 (some 0) 10 =
      ([], [(0, [0]), (1, [1, 2]), (2, [3, 3])]) := by
  decide

/-! ### The layout engine: `Canvas.update` and the drawable nodes -/

/-- Exact fraction scalars for the canvas embedding.  Python's floats are
embedded as exact fractions of integers; the fractions are deliberately
kept unnormalized (the arithmetic below never reduces by a gcd), equality
with zero is tested on the numerator, and every theorem of this section is
invariant under the representation. -/
structure Q where
  num : Int
  den : Int
deriving DecidableEq, Repr

instance : OfNat Q n := ⟨⟨n, 1⟩⟩

instance : Add Q := ⟨fun a b => ⟨a.num * b.den + b.num * a.den, a.den * b.den⟩⟩

instance : Sub Q := ⟨fun a b => ⟨a.num * b.den - b.num * a.den, a.den * b.den⟩⟩

instance : Mul Q := ⟨fun a b => ⟨a.num * b.num, a.den * b.den⟩⟩

instance : Div Q := ⟨fun a b => ⟨a.num * b.den, a.den * b.num⟩⟩

instance : Neg Q := ⟨fun a => ⟨-a.num, a.den⟩⟩

def Q.pow (a : Q) : Nat → Q
  | 0 => 1
  | n + 1 => Q.pow a n * a

instance : Pow Q Nat := ⟨Q.pow⟩

/-- The numeric zero test `d == 0` of Python on a fraction. -/
def Q.isZero (a : Q) : Bool := a.num == 0

/-- Planar vectors with exact coordinates (utilities.py, class `Vector`,
restricted to the two components the canvas uses). -/
abbrev Vec := Q × Q

def vadd (a b : Vec) : Vec := (a.1 + b.1, a.2 + b.2)

def vsub (a b : Vec) : Vec := (a.1 - b.1, a.2 - b.2)

def vneg (a : Vec) : Vec := (-a.1, -a.2)

def vscale (k : Q) (a : Vec) : Vec := (k * a.1, k * a.2)

def vdiv (a : Vec) (k : Q) : Vec := (a.1 / k, a.2 / k)

/-- `Vector.magnitude` squared: the argument handed to `math.sqrt`. -/
def sqMag (v : Vec) : Q := v.1 * v.1 + v.2 * v.2

/-- `Vector.distance`, with `math.sqrt` abstracted as the parameter `sq`
(every theorem below holds for an arbitrary square-root oracle, and the
concrete instances pick one that is exact on the values reached). -/
def vdist (sq : Q → Q) (a b : Vec) : Q := sq (sqMag (vsub a b))

/-- `Vector.unit`: the vector divided by its magnitude. -/
def vunit (sq : Q → Q) (v : Vec) : Vec := vdiv v (sq (sqMag v))

/-- The layout-relevant state of a `DrawableNode`: its position, its queued
force accumulator, and whether it is drag-held. -/
structure CNode where
  pos : Vec
  forces : List Vec
  dragged : Bool
deriving DecidableEq

/-- The `while` loop of `DrawableNode.evaluate_forces`, already walking the
pop order (the accumulator's reverse): each popped force moves the node
only when it is not drag-held. -/
def evalRev (dragged : Bool) : Vec → List Vec → Vec
  | p, [] => p
  | p, f :: rest => evalRev dragged (if dragged then p else vadd p f) rest

/-- `DrawableNode.evaluate_forces` (graph.py lines 459-466): drain the
accumulator from the end, adding each force to the position unless the node
is drag-held. -/
def CNode.evaluate_forces (n : CNode) : CNode :=
  { n with pos := evalRev n.dragged n.pos n.forces.reverse, forces := [] }

/-- Modelled from the spec: `Graph.is_vertex(n1, n2)` used by
`Canvas.update` is not among the repository's files under `src/`; per the
spec's reading ("if an edge exists between them in either direction", with
the call `is_vertex(n1, n2) or is_vertex(n2, n1)`) it tests for a directed
edge record from the first node to the second. -/
def Graph.is_vertex (g : Graph) (a b : NodeId) : Bool := g.isAdjacent a b

/-- The events of one `Canvas.update` tick, in program order. -/
inductive FEvent where
  | queued (i j : NodeId)
  | jitter (i : NodeId)
  | evaluated (i : NodeId)
deriving DecidableEq, Repr

/-- The force computation of `Canvas.update` for one pair `(n1, n2)`
(lines 131-158 of src/src/__main__.py): skip unless the pair is weakly
connected (`not None` is true, so `None` also skips); at distance 0 nudge
`n1` by the jitter `jit i j` (modelling `Vector(random(), random())`) and
skip the rest; otherwise push the repulsion `(1/d)²` on both nodes in
opposite directions along the unit vector, and, when an edge exists in
either direction, also the attraction `-(d-8)/10`. -/
def pairForces (sq : Q → Q) (jit : NodeId → NodeId → Vec) (g : Graph)
    (i j : NodeId) (ci cj : CNode) : CNode × CNode × List FEvent :=
  if g.weakly_connected i j == some true then
    let d := vdist sq ci.pos cj.pos
    if d.isZero then
      ({ ci with forces := ci.forces ++ [jit i j] }, cj, [FEvent.jitter i])
    else
      let uv := vunit sq (vsub cj.pos ci.pos)
      let fr := (1 / d) ^ 2
      let ci1 := { ci with forces := ci.forces ++ [vscale fr (vneg uv)] }
      let cj1 := { cj with forces := cj.forces ++ [vscale fr uv] }
      if g.is_vertex i j || g.is_vertex j i then
        let fa := -(d - 8) / 10
        ({ ci1 with forces := ci1.forces ++ [vscale fa (vneg uv)] },
          { cj1 with forces := cj1.forces ++ [vscale fa uv] },
          [FEvent.queued i j])
      else (ci1, cj1, [FEvent.queued i j])
  else (ci, cj, [])

/-- The inner loop of `Canvas.update` for the row of `n1`: visit every
later node, threading `n1`'s accumulator and updating each partner in
place. -/
def rowStep (sq : Q → Q) (jit : NodeId → NodeId → Vec) (g : Graph)
    (i : NodeId) (ci : CNode) :
    List (NodeId × CNode) → CNode × List (NodeId × CNode) × List FEvent
  | [] => (ci, [], [])
  | (j, cj) :: rest =>
    let r := pairForces sq jit g i j ci cj
    let next := rowStep sq jit g i r.1 rest
    (next.1, (j, r.2.1) :: next.2.1, r.2.2 ++ next.2.2)

theorem rowStep_length (sq : Q → Q) (jit : NodeId → NodeId → Vec) (g : Graph)
    (i : NodeId) :
    ∀ (l : List (NodeId × CNode)) (ci : CNode),
      ((rowStep sq jit g i ci l).2.1).length = l.length
  | [], _ => rfl
  | (j, cj) :: rest, ci => by
    unfold rowStep
    simp [rowStep_length sq jit g i rest]

/-- The outer loop of `Canvas.update` with forces enabled (lines 128-160),
with the remaining iteration count made explicit as fuel (the wrapper below
passes the list's length, which `rowStep_length` shows is always enough):
for each node in turn, queue the pairwise forces of its row and then
immediately `evaluate_forces` it — the evaluation is *inside* the outer
loop. -/
def canvasLoop (sq : Q → Q) (jit : NodeId → NodeId → Vec) (g : Graph) :
    Nat → List (NodeId × CNode) → List (NodeId × CNode) × List FEvent
  | 0, cs => (cs, [])
  | _ + 1, [] => ([], [])
  | fuel + 1, (i, ci) :: rest =>
    let row := rowStep sq jit g i ci rest
    let next := canvasLoop sq jit g fuel row.2.1
    ((i, row.1.evaluate_forces) :: next.1,
      row.2.2 ++ [FEvent.evaluated i] ++ next.2)

/-- One tick of `Canvas.update` with forces enabled. -/
def canvasRows (sq : Q → Q) (jit : NodeId → NodeId → Vec) (g : Graph)
    (cs : List (NodeId × CNode)) : List (NodeId × CNode) × List FEvent :=
  canvasLoop sq jit g cs.length cs

/-- The first phase of the schedule the spec describes: queue every row's
pairwise forces with no evaluation interleaved. -/
def queueLoop (sq : Q → Q) (jit : NodeId → NodeId → Vec) (g : Graph) :
    Nat → List (NodeId × CNode) → List (NodeId × CNode) × List FEvent
  | 0, cs => (cs, [])
  | _ + 1, [] => ([], [])
  | fuel + 1, (i, ci) :: rest =>
    let row := rowStep sq jit g i ci rest
    let next := queueLoop sq jit g fuel row.2.1
    ((i, row.1) :: next.1, row.2.2 ++ next.2)

/-- The schedule the spec describes: queue all pairwise forces first, then
invoke `evaluate` for every node. -/
def twoPhase (sq : Q → Q) (jit : NodeId → NodeId → Vec) (g : Graph)
    (cs : List (NodeId × CNode)) : List (NodeId × CNode) × List FEvent :=
  let q := queueLoop sq jit g cs.length cs
  (q.1.map (fun p => (p.1, p.2.evaluate_forces)),
    q.2 ++ q.1.map (fun p => FEvent.evaluated p.1))

def isQueueEvent : FEvent → Bool
  | FEvent.queued _ _ => true
  | FEvent.jitter _ => true
  | FEvent.evaluated _ => false

/-- A trace is two-phased when no force is queued after an evaluation. -/
def phasedOk : List FEvent → Bool
  | [] => true
  | e :: rest =>
    if isQueueEvent e then phasedOk rest
    else rest.all (fun x => !isQueueEvent x)

theorem pairForces_pos (sq : Q → Q) (jit : NodeId → NodeId → Vec) (g : Graph)
    (i j : NodeId) (ci cj : CNode) :
    (pairForces sq jit g i j ci cj).1.pos = ci.pos ∧
    (pairForces sq jit g i j ci cj).2.1.pos = cj.pos := by
  unfold pairForces
  by_cases h1 : (g.weakly_connected i j == some true) = true
  · rw [if_pos h1]
    dsimp only
    by_cases h2 : (vdist sq ci.pos cj.pos).isZero = true
    · rw [if_pos h2]
      exact ⟨rfl, rfl⟩
    · rw [if_neg h2]
      by_cases h3 : (g.is_vertex i j || g.is_vertex j i) = true
      · rw [if_pos h3]
        exact ⟨rfl, rfl⟩
      · rw [if_neg h3]
        exact ⟨rfl, rfl⟩
  · rw [if_neg h1]
    exact ⟨rfl, rfl⟩

theorem rowStep_pos (sq : Q → Q) (jit : NodeId → NodeId → Vec) (g : Graph)
    (i : NodeId) :
    ∀ (l : List (NodeId × CNode)) (ci : CNode),
      (rowStep sq jit g i ci l).1.pos = ci.pos ∧
      (rowStep sq jit g i ci l).2.1.map (fun p => (p.1, p.2.pos)) =
        l.map (fun p => (p.1, p.2.pos))
  | [], _ => ⟨rfl, rfl⟩
  | (j, cj) :: rest, ci => by
    have ih := rowStep_pos sq jit g i rest (pairForces sq jit g i j ci cj).1
    have hp := pairForces_pos sq jit g i j ci cj
    constructor
    · show (rowStep sq jit g i (pairForces sq jit g i j ci cj).1 rest).1.pos = ci.pos
      exact ih.1.trans hp.1
    · show ((j, (pairForces sq jit g i j ci cj).2.1) ::
          (rowStep sq jit g i (pairForces sq jit g i j ci cj).1 rest).2.1).map
            (fun p => (p.1, p.2.pos)) = ((j, cj) :: rest).map (fun p => (p.1, p.2.pos))
      simp only [List.map_cons]
      rw [ih.2, hp.2]

theorem canvasLoop_fst_eq (sq : Q → Q) (jit : NodeId → NodeId → Vec) (g : Graph) :
    ∀ (fuel : Nat) (cs : List (NodeId × CNode)), cs.length ≤ fuel →
      (canvasLoop sq jit g fuel cs).1 =
        (queueLoop sq jit g fuel cs).1.map (fun p => (p.1, p.2.evaluate_forces))
  | 0, [], _ => rfl
  | 0, _ :: _, h => by simp at h
  | _ + 1, [], _ => rfl
  | fuel + 1, (i, ci) :: rest, h => by
    have hlen : ((rowStep sq jit g i ci rest).2.1).length ≤ fuel := by
      rw [rowStep_length]
      exact Nat.le_of_succ_le_succ h
    have ih := canvasLoop_fst_eq sq jit g fuel ((rowStep sq jit g i ci rest).2.1) hlen
    show ((i, (rowStep sq jit g i ci rest).1.evaluate_forces) ::
        (canvasLoop sq jit g fuel ((rowStep sq jit g i ci rest).2.1)).1) =
      (((i, (rowStep sq jit g i ci rest).1) ::
        (queueLoop sq jit g fuel ((rowStep sq jit g i ci rest).2.1)).1).map
          (fun p => (p.1, p.2.evaluate_forces)))
    rw [List.map_cons, ih]

theorem queueLoop_pos (sq : Q → Q) (jit : NodeId → NodeId → Vec) (g : Graph) :
    ∀ (fuel : Nat) (cs : List (NodeId × CNode)),
      (queueLoop sq jit g fuel cs).1.map (fun p => (p.1, p.2.pos)) =
        cs.map (fun p => (p.1, p.2.pos))
  | 0, _ => rfl
  | _ + 1, [] => rfl
  | fuel + 1, (i, ci) :: rest => by
    have ih := queueLoop_pos sq jit g fuel ((rowStep sq jit g i ci rest).2.1)
    have hrow := rowStep_pos sq jit g i rest ci
    show ((i, (rowStep sq jit g i ci rest).1) ::
        (queueLoop sq jit g fuel ((rowStep sq jit g i ci rest).2.1)).1).map
          (fun p => (p.1, p.2.pos)) = ((i, ci) :: rest).map (fun p => (p.1, p.2.pos))
    simp only [List.map_cons]
    rw [ih, hrow.1, hrow.2]

/-- **C4** (amended): the code interleaves each node's `evaluate` with the
queueing of later rows — see `C4_interleaving_counterexample` — but the
outcome the spec motivates still holds: the interleaved tick produces
exactly the node states of the queue-everything-then-evaluate schedule, and
that schedule's queueing phase never changes a position, so every force is
computed from the tick-start snapshot. -/
theorem C4_update_snapshot_consistent (sq : Q → Q) (jit : NodeId → NodeId → Vec)
    (g : Graph) (cs : List (NodeId × CNode)) :
    (canvasRows sq jit g cs).1 = (twoPhase sq jit g cs).1 ∧
    (queueLoop sq jit g cs.length cs).1.map (fun p => (p.1, p.2.pos)) =
      cs.map (fun p => (p.1, p.2.pos)) :=
  ⟨canvasLoop_fst_eq sq jit g cs.length cs (Nat.le_refl _), queueLoop_pos sq jit g cs.length cs⟩

/-- A reachable undirected path `0 — 1 — 2`. -/
def exOpsF : List Op :=
  [Op.addNode none, Op.addNode none, Op.addNode none,
    Op.addVertex 0 1 1, Op.addVertex 1 2 1]

/-- Canvas states for the path's three nodes. -/
def exCanvas : List (NodeId × CNode) :=
  [(0, ⟨(0, 0), [], false⟩), (1, ⟨(3, 4), [], false⟩), (2, ⟨(6, 8), [], false⟩)]

/-- Counterexample to **C4** as stated: on the three-node path, node 0 is
evaluated before the forces of the pair `(1, 2)` are queued — the trace of
a tick is not queue-everything-then-evaluate. -/
theorem C4_interleaving_counterexample :
    phasedOk (canvasRows (fun q : Q => q) (fun _ _ => (0, 0))
      (runOps exOpsF).1 exCanvas).2 = false := by
  decide

/-- **C5**: for a weakly connected pair at nonzero distance `d` with an
edge in either direction, the tick queues — besides the repulsion
`(1/d)²` — the attraction `-(d-8)/10` along the unit vector, negated on the
first node and plain on the second, independent of edge direction.  The
`is_vertex` gate is modelled from the spec, as its code is not among the
repository's files under `src/`. -/
theorem C5_attraction_forces (sq : Q → Q) (jit : NodeId → NodeId → Vec)
    (g : Graph) (i j : NodeId) (ci cj : CNode)
    (hwc : g.weakly_connected i j = some true)
    (hd : (vdist sq ci.pos cj.pos).isZero = false)
    (he : (g.is_vertex i j || g.is_vertex j i) = true) :
    (pairForces sq jit g i j ci cj).1.forces =
      ci.forces ++
        [vscale ((1 / vdist sq ci.pos cj.pos) ^ 2) (vneg (vunit sq (vsub cj.pos ci.pos))),
          vscale (-(vdist sq ci.pos cj.pos - 8) / 10) (vneg (vunit sq (vsub cj.pos ci.pos)))] ∧
    (pairForces sq jit g i j ci cj).2.1.forces =
      cj.forces ++
        [vscale ((1 / vdist sq ci.pos cj.pos) ^ 2) (vunit sq (vsub cj.pos ci.pos)),
          vscale (-(vdist sq ci.pos cj.pos - 8) / 10) (vunit sq (vsub cj.pos ci.pos))] := by
  unfold pairForces
  rw [if_pos (by simp [hwc])]
  dsimp only
  rw [if_neg (by rw [hd]; simp), if_pos he]
  exact ⟨by simp, by simp⟩

def exSq : Q → Q := fun q => if q = 25 then 5 else 0

def exJit : NodeId → NodeId → Vec := fun _ _ => (0, 0)

def exCi : CNode := ⟨(0, 0), [], false⟩

def exCj : CNode := ⟨(3, 4), [], false⟩

theorem C5_attraction_forces_witness :
    ((runOps exOpsF).1.weakly_connected 0 1 = some true ∧
      (vdist exSq exCi.pos exCj.pos).isZero = false ∧
      ((runOps exOpsF).1.is_vertex 0 1 || (runOps exOpsF).1.is_vertex 1 0) = true) ∧
    (pairForces exSq exJit (runOps exOpsF).1 0 1 exCi exCj).1.forces =
      exCi.forces ++
        [vscale ((1 / vdist exSq exCi.pos exCj.pos) ^ 2)
            (vneg (vunit exSq (vsub exCj.pos exCi.pos))),
          vscale (-(vdist exSq exCi.pos exCj.pos - 8) / 10)
            (vneg (vunit exSq (vsub exCj.pos exCi.pos)))] :=
  ⟨⟨by decide, by decide, by decide⟩,
    (C5_attraction_forces exSq exJit (runOps exOpsF).1 0 1 exCi exCj
      (by decide) (by decide) (by decide)).1⟩

theorem evalRev_dragged (p : Vec) (l : List Vec) : evalRev true p l = p := by
  induction l generalizing p with
  | nil => rfl
  | cons f rest ih => exact ih p

/-- **C6**: a drag-held node's `evaluate_forces` leaves its position
unchanged — every popped force is discarded by the `is_dragged` test — and
drains the accumulator. -/
theorem C6_dragged_evaluate_fixes_position (n : CNode) (h : n.dragged = true) :
    n.evaluate_forces.pos = n.pos ∧ n.evaluate_forces.forces = [] := by
  refine ⟨?_, rfl⟩
  show evalRev n.dragged n.pos n.forces.reverse = n.pos
  rw [h]
  exact evalRev_dragged n.pos n.forces.reverse

def exDragNode : CNode := ⟨(0, 0), [(1, 2), (3, 4)], true⟩

theorem C6_dragged_evaluate_fixes_position_witness :
    exDragNode.dragged = true ∧
    (exDragNode.evaluate_forces.pos = exDragNode.pos ∧
      exDragNode.evaluate_forces.forces = []) :=
  ⟨rfl, C6_dragged_evaluate_fixes_position exDragNode rfl⟩

end Grafatko
